import Mathlib

set_option maxHeartbeats 1000000

/-!
Shallow embedding of the distributed order-matching core of the repository:
`src/common/orderbook.py` (OrderBook.add_order, OrderBook._match_order_at_price),
`src/engine/match_engine.py` (MatchEngine.submit_order, MatchEngine.cancel_order)
and the CancelOrder handler of `src/network/grpc_server.py`.

Python floats (prices, quantities) are modelled as integers (the embedded
operations on them are only ordering, min/max and subtraction); the
wall-clock timestamp fields (datetime.now()) are omitted from the records.
The source writes the side of an order both as the strings "BUY"/"SELL"
(orderbook.py) and as the two-valued enum Side (match_engine.py); it is
modelled uniformly as a two-constructor sum.  Python dicts are modelled as
association lists with unique keys (lookup by first matching key,
assignment replaces the entry in place or appends a new key at the end,
exactly the observable dict behaviour).
-/

inductive Side where
  | BUY
  | SELL
deriving DecidableEq

inductive OrderStatus where
  | NEW
  | PARTIALLY_FILLED
  | FILLED
  | CANCELLED
deriving DecidableEq

/-- Order record, from the dataclass in `src/common/order.py` together with
the networked OrderRequest shape consumed by `src/common/orderbook.py`.
The single origin-engine field that the sources call `engine_id` /
`engine_origin_addr` is modelled as `engine_origin_addr`. -/
structure Order where
  order_id : String
  client_id : String
  symbol : String
  side : Side
  price : ℤ
  quantity : ℤ
  remaining_quantity : ℤ
  status : OrderStatus
  engine_origin_addr : String
deriving DecidableEq

/-- Fill record, fields exactly as constructed in
`OrderBook._match_order_at_price` (src/common/orderbook.py), minus the
`datetime.now()` timestamp. -/
structure Fill where
  fill_id : String
  order_id : String
  symbol : String
  side : Side
  price : ℤ
  quantity : ℤ
  remaining_quantity : ℤ
  buyer_id : String
  seller_id : String
  engine_destination_addr : String
deriving DecidableEq

/-- One side of a book: the Python dict `price -> list of resting orders`. -/
abbrev LevelMap := List (ℤ × List Order)

def getLevel : LevelMap → ℤ → List Order
  | [], _ => []
  | e :: es, p => if e.1 = p then e.2 else getLevel es p

def hasKey : LevelMap → ℤ → Bool
  | [], _ => false
  | e :: es, p => decide (e.1 = p) || hasKey es p

def replaceLevel : LevelMap → ℤ → List Order → LevelMap
  | [], _, _ => []
  | e :: es, p, q => (if e.1 = p then (p, q) else e) :: replaceLevel es p q

/-- Python dict assignment `m[p] = q`: replace in place when the key exists,
append the new key at the end otherwise. -/
def setLevel (m : LevelMap) (p : ℤ) (q : List Order) : LevelMap :=
  if hasKey m p then replaceLevel m p q else m ++ [(p, q)]

/-- Python `del m[p]` (used by cancel_order when a level becomes empty). -/
def delLevel (m : LevelMap) (p : ℤ) : LevelMap :=
  m.filter (fun e => decide (e.1 ≠ p))

def keysOf (m : LevelMap) : List ℤ := m.map (fun e => e.1)

/-- All resting orders of one side, in level order. -/
def sideOrders : LevelMap → List Order
  | [] => []
  | e :: es => e.2 ++ sideOrders es

/-- Python `max(keys, default=None)` over the keys of a dict (including keys whose
level list is empty, as in the source). -/
def keysMax : LevelMap → Option ℤ
  | [] => none
  | e :: es =>
    match keysMax es with
    | none => some e.1
    | some v => some (max e.1 v)

def keysMin : LevelMap → Option ℤ
  | [] => none
  | e :: es =>
    match keysMin es with
    | none => some e.1
    | some v => some (min e.1 v)

/-- Insertion of a key into a list sorted by the Bool comparator `le`. -/
def insertSortedBy (le : ℤ → ℤ → Bool) (x : ℤ) : List ℤ → List ℤ
  | [] => [x]
  | y :: ys => if le x y then x :: y :: ys else y :: insertSortedBy le x ys

/-- Python `sorted(keys)` (with `le` ascending) and
`sorted(keys, reverse=True)` (with `le` flipped). -/
def sortKeysBy (le : ℤ → ℤ → Bool) (l : List ℤ) : List ℤ :=
  l.foldr (insertSortedBy le) []

def ascLE (a b : ℤ) : Bool := decide (a ≤ b)

def descLE (a b : ℤ) : Bool := decide (b ≤ a)

/-- fill_id as built in the source:
`f"FILL;incoming:{incoming.order_id};resting:{resting.order_id}"`. -/
def fill_id_of (inc rest : Order) : String :=
  "FILL;incoming:" ++ inc.order_id ++ ";resting:" ++ rest.order_id

/-- buyer_id of the two fill records: the BUY branch of
`_match_order_at_price` uses the incoming client, the SELL branch the
resting client. -/
def buyerOf (inc rest : Order) : String :=
  match inc.side with
  | Side.BUY => inc.client_id
  | Side.SELL => rest.client_id

def sellerOf (inc rest : Order) : String :=
  match inc.side with
  | Side.BUY => rest.client_id
  | Side.SELL => inc.client_id

/-- The fill appended to `incoming_fills` (remaining_quantity is the
literal 0 of the source). -/
def mkIncomingFill (inc rest : Order) (p fq : ℤ) : Fill :=
  { fill_id := fill_id_of inc rest
    order_id := inc.order_id
    symbol := inc.symbol
    side := inc.side
    price := p
    quantity := fq
    remaining_quantity := 0
    buyer_id := buyerOf inc rest
    seller_id := sellerOf inc rest
    engine_destination_addr := inc.engine_origin_addr }

/-- The fill appended to `resting_fills`; `rest1` is the resting order
after its remaining_quantity was decremented, since the source builds the
record after `resting_order.remaining_quantity -= fill_qty`.  Note the
source addresses this record to `incoming_order.engine_origin_addr`. -/
def mkRestingFill (inc rest1 : Order) (p fq : ℤ) : Fill :=
  { fill_id := fill_id_of inc rest1
    order_id := rest1.order_id
    symbol := rest1.symbol
    side := rest1.side
    price := p
    quantity := fq
    remaining_quantity := rest1.remaining_quantity
    buyer_id := buyerOf inc rest1
    seller_id := sellerOf inc rest1
    engine_destination_addr := inc.engine_origin_addr }

structure LevelMatch where
  ord : Order
  level : List Order
  incF : List (String × Fill)
  restF : List (String × Fill)
deriving DecidableEq

/-- Model of `OrderBook._match_order_at_price` restricted to one price level: the
source iterates over a copy of the level list, takes
`fill_qty = min(incoming.remaining, resting.remaining)`, skips the resting
order when `fill_qty <= 0`, otherwise decrements both sides, emits the
paired fill records (each tagged with the notified client's id), and
removes the resting order from the live list when its remaining reaches
zero.  The two Python branches (BUY against asks, SELL against bids) are
textually identical except for the buyer/seller assignment, which is
captured by `buyerOf`/`sellerOf`. -/
def matchAtPrice (p : ℤ) : List Order → Order → LevelMatch
  | [], o => ⟨o, [], [], []⟩
  | r :: rs, o =>
    let fq := min o.remaining_quantity r.remaining_quantity
    if fq ≤ 0 then
      let m := matchAtPrice p rs o
      ⟨m.ord, r :: m.level, m.incF, m.restF⟩
    else
      let o1 : Order := { o with remaining_quantity := o.remaining_quantity - fq }
      let r1 : Order := { r with remaining_quantity := r.remaining_quantity - fq }
      let fi := (o.client_id, mkIncomingFill o r p fq)
      let fr := (r1.client_id, mkRestingFill o r1 p fq)
      let m := matchAtPrice p rs o1
      if r1.remaining_quantity ≤ 0 then
        ⟨m.ord, m.level, fi :: m.incF, fr :: m.restF⟩
      else
        ⟨m.ord, r1 :: m.level, fi :: m.incF, fr :: m.restF⟩

/-- Model of `OrderBook._match_order_at_price`, argument order as in the source. -/
def match_order_at_price (o : Order) (p : ℤ) (orders : List Order) : LevelMatch :=
  matchAtPrice p orders o

structure LoopResult where
  ord : Order
  book : LevelMap
  incF : List (String × Fill)
  restF : List (String × Fill)
deriving DecidableEq

/-- The matching loop of `OrderBook.add_order`: iterate over the sorted
key list, breaking as soon as the price passes the limit
(`price > order.price` for BUY, `price < order.price` for SELL — the
`tooFar` parameter) or the incoming order is exhausted. -/
def matchLoop (tooFar : ℤ → Bool) : List ℤ → Order → LevelMap → LoopResult
  | [], o, m => ⟨o, m, [], []⟩
  | p :: ps, o, m =>
    if tooFar p || decide (o.remaining_quantity ≤ 0) then ⟨o, m, [], []⟩
    else
      let lm := match_order_at_price o p (getLevel m p)
      let res := matchLoop tooFar ps lm.ord (setLevel m p lm.level)
      ⟨res.ord, res.book, lm.incF ++ res.incF, lm.restF ++ res.restF⟩

structure OrderBook where
  symbol : String
  bids : LevelMap
  asks : LevelMap
deriving DecidableEq

/-- Python `self.bids[order.price].append(order)` on a defaultdict(list). -/
def appendResting (m : LevelMap) (o : Order) : LevelMap :=
  setLevel m o.price (getLevel m o.price ++ [o])

structure AddResult where
  book : OrderBook
  ord : Order
  incoming_fills : List (String × Fill)
  resting_fills : List (String × Fill)
deriving DecidableEq

/-- Model of `OrderBook.add_order` (src/common/orderbook.py lines 29-60): match a
BUY against the ask levels in ascending price order (SELL against the bids
in descending order), stopping at the first level beyond the limit or when
the incoming order is exhausted; afterwards, if the order still has
remaining quantity, append it at the tail of its own side's level at
`order.price`.  Consumed price levels are left in the dict as keys with an
empty list (the source has no `del`). -/
def OrderBook.add_order (bk : OrderBook) (o : Order) : AddResult :=
  match o.side with
  | Side.BUY =>
    let r := matchLoop (fun p => decide (o.price < p))
               (sortKeysBy ascLE (keysOf bk.asks)) o bk.asks
    let bids1 := if 0 < r.ord.remaining_quantity then appendResting bk.bids r.ord
                 else bk.bids
    ⟨⟨bk.symbol, bids1, r.book⟩, r.ord, r.incF, r.restF⟩
  | Side.SELL =>
    let r := matchLoop (fun p => decide (p < o.price))
               (sortKeysBy descLE (keysOf bk.bids)) o bk.bids
    let asks1 := if 0 < r.ord.remaining_quantity then appendResting bk.asks r.ord
                 else bk.asks
    ⟨⟨bk.symbol, r.book, asks1⟩, r.ord, r.incF, r.restF⟩

/-! ## Engine layer (src/engine/match_engine.py) -/

def alookup {α : Type} : List (String × α) → String → Option α
  | [], _ => none
  | e :: es, k => if e.1 = k then some e.2 else alookup es k

def ahasKey {α : Type} : List (String × α) → String → Bool
  | [], _ => false
  | e :: es, k => decide (e.1 = k) || ahasKey es k

def areplace {α : Type} : List (String × α) → String → α → List (String × α)
  | [], _, _ => []
  | e :: es, k, v => (if e.1 = k then (k, v) else e) :: areplace es k v

/-- Python dict assignment for string-keyed dicts (orders, orderbooks,
global_best_prices). -/
def aset {α : Type} (m : List (String × α)) (k : String) (v : α) : List (String × α) :=
  if ahasKey m k then areplace m k v else m ++ [(k, v)]

/-- One entry of the synchronizer's `global_best_prices[symbol]`
dictionary: `{'price': ..., 'engine_id': ...}`, either of which may be
None (src/engine/synchronizer.py, update_global_best_prices). -/
structure BestEntry where
  price : Option ℤ
  engine_id : Option String
deriving DecidableEq

structure BestPair where
  best_bid : BestEntry
  best_ask : BestEntry
deriving DecidableEq

/-- The MatchEngine state visible to submit_order/cancel_order: its id,
the `symbol -> OrderBook` map, the `order_id -> Order` map, and the
synchronizer's `global_best_prices` view that submit_order reads. -/
structure EngineState where
  engine_id : String
  orderbooks : List (String × OrderBook)
  orders : List (String × Order)
  global_best : List (String × BestPair)
deriving DecidableEq

/-- The `(islocal, target, fills)` tuple returned by
`MatchEngine.submit_order`, plus the updated engine state.  When the order
is rerouted, `target` is the engine id recorded for the better global
price (which the synchronizer may have left as None); when it is processed
locally the source returns the constant 0 in that position, modelled as
`none`. -/
structure SubmitResult where
  islocal : Bool
  target : Option String
  incoming_fills : List (String × Fill)
  resting_fills : List (String × Fill)
  state : EngineState
deriving DecidableEq

/-- Model of `MatchEngine.submit_order` (src/engine/match_engine.py lines 22-91):
stamp the order with this engine's id, record it in the orders map, lazily
create the orderbook, then decide between rerouting and local processing
by comparing the synchronizer's global best prices with the order's limit
and the local best (local best bid defaulting to 0, local best ask to
9999).  A SELL is rerouted when the global best bid strictly exceeds both;
a BUY when the global best ask is strictly below both; otherwise the order
is matched locally via `OrderBook.add_order`.  The awaited
`publish_update` call only talks to the synchronizer's network queue and
has no effect on this state. -/
def MatchEngine.submit_order (st : EngineState) (o : Order) : SubmitResult :=
  let o1 : Order := { o with engine_origin_addr := st.engine_id }
  let orders1 := aset st.orders o1.order_id o1
  let books1 := if ahasKey st.orderbooks o1.symbol then st.orderbooks
                else st.orderbooks ++ [(o1.symbol, ⟨o1.symbol, [], []⟩)]
  let bk := (alookup books1 o1.symbol).getD ⟨o1.symbol, [], []⟩
  let gb := alookup st.global_best o1.symbol
  let gbb : Option ℤ := match gb with
    | some d => d.best_bid.price
    | none => none
  let gbbId : Option String := match gb with
    | some d => d.best_bid.engine_id
    | none => none
  let gba : Option ℤ := match gb with
    | some d => d.best_ask.price
    | none => none
  let gbaId : Option String := match gb with
    | some d => d.best_ask.engine_id
    | none => none
  let lbb : ℤ := (keysMax bk.bids).getD 0
  let lba : ℤ := (keysMin bk.asks).getD 9999
  let sellRe : Bool := decide (o1.side = Side.SELL) &&
    (match gbb with
     | some pb => decide (o1.price < pb) && decide (lbb < pb)
     | none => false)
  let buyRe : Bool := decide (o1.side = Side.BUY) &&
    (match gba with
     | some pa => decide (pa < o1.price) && decide (pa < lba)
     | none => false)
  if sellRe then
    ⟨false, gbbId, [], [], ⟨st.engine_id, books1, orders1, st.global_best⟩⟩
  else if buyRe then
    ⟨false, gbaId, [], [], ⟨st.engine_id, books1, orders1, st.global_best⟩⟩
  else
    let ar := bk.add_order o1
    let books2 := aset books1 o1.symbol ar.book
    let orders2 := aset orders1 o1.order_id ar.ord
    ⟨true, none, ar.incoming_fills, ar.resting_fills,
      ⟨st.engine_id, books2, orders2, st.global_best⟩⟩

/-- Python `list.remove(x)`: delete the first element equal to `x`, raise
ValueError when there is none. -/
def listRemove (l : List Order) (o : Order) : Option (List Order) :=
  if o ∈ l then some (l.erase o) else none

/-- Model of `MatchEngine.cancel_order` (src/engine/match_engine.py lines 94-115).
`Except String` carries the uncaught Python exceptions: ValueError from
`list.remove` and KeyError from `self.orderbooks[order.symbol]`.  The
source mutates the shared Order object; here the orders-map entry is
updated and the book operates on the stored value. -/
def MatchEngine.cancel_order (st : EngineState) (order_id : String) :
    Except String (EngineState × Option Order) :=
  match alookup st.orders order_id with
  | none => Except.ok (st, none)
  | some o =>
    if o.status = OrderStatus.CANCELLED then Except.ok (st, none)
    else
      let o1 : Order := { o with status := OrderStatus.CANCELLED }
      let orders1 := aset st.orders order_id o1
      match alookup st.orderbooks o.symbol with
      | none => Except.error "KeyError"
      | some bk =>
        if o.side = Side.BUY ∧ hasKey bk.bids o.price then
          match listRemove (getLevel bk.bids o.price) o with
          | none => Except.error "ValueError"
          | some lvl =>
            let bids1 := if lvl = [] then delLevel bk.bids o.price
                         else setLevel bk.bids o.price lvl
            let bk1 : OrderBook := ⟨bk.symbol, bids1, bk.asks⟩
            Except.ok (⟨st.engine_id, aset st.orderbooks o.symbol bk1, orders1,
              st.global_best⟩, some o1)
        else if o.side = Side.SELL ∧ hasKey bk.asks o.price then
          match listRemove (getLevel bk.asks o.price) o with
          | none => Except.error "ValueError"
          | some lvl =>
            let asks1 := if lvl = [] then delLevel bk.asks o.price
                         else setLevel bk.asks o.price lvl
            let bk1 : OrderBook := ⟨bk.symbol, bk.bids, asks1⟩
            Except.ok (⟨st.engine_id, aset st.orderbooks o.symbol bk1, orders1,
              st.global_best⟩, some o1)
        else
          Except.ok (⟨st.engine_id, st.orderbooks, orders1, st.global_best⟩, some o1)

inductive CancelStatus where
  | SUCCESS
  | NOT_FOUND
  | ERROR
deriving DecidableEq

/-- Model of `MatchingServicer.CancelOrder` (src/network/grpc_server.py lines
28-40): SUCCESS when cancel_order returns an order, NOT_FOUND when it
returns None, ERROR when it raises. -/
def MatchingServicer.CancelOrder (st : EngineState) (order_id : String) : CancelStatus :=
  match MatchEngine.cancel_order st order_id with
  | Except.error _ => CancelStatus.ERROR
  | Except.ok (_, some _) => CancelStatus.SUCCESS
  | Except.ok (_, none) => CancelStatus.NOT_FOUND


/-! ## Lemmas about the level-map operations -/

theorem getLevel_append (m l : LevelMap) (p : ℤ) :
    getLevel (m ++ l) p = if hasKey m p then getLevel m p else getLevel l p := by
  induction m with
  | nil => simp [getLevel, hasKey]
  | cons e es ih =>
    simp only [List.cons_append, getLevel, hasKey, Bool.or_eq_true, decide_eq_true_eq]
    by_cases he : e.1 = p
    · simp [he]
    · simp [he, ih]

theorem replaceLevel_getLevel_ne (m : LevelMap) (p p' : ℤ) (q : List Order)
    (h : p ≠ p') : getLevel (replaceLevel m p q) p' = getLevel m p' := by
  induction m with
  | nil => simp [replaceLevel]
  | cons e es ih =>
    simp only [replaceLevel, getLevel]
    by_cases he : e.1 = p
    · simp [he, h, getLevel, ih]
    · simp [he, getLevel, ih]

theorem replaceLevel_getLevel_self (m : LevelMap) (p : ℤ) (q : List Order)
    (h : hasKey m p = true) : getLevel (replaceLevel m p q) p = q := by
  induction m with
  | nil => simp [hasKey] at h
  | cons e es ih =>
    simp only [replaceLevel, getLevel]
    by_cases he : e.1 = p
    · simp [he, getLevel]
    · simp only [hasKey, Bool.or_eq_true, decide_eq_true_eq, he, false_or] at h
      simp [he, getLevel, ih h]

theorem getLevel_setLevel_self (m : LevelMap) (p : ℤ) (q : List Order) :
    getLevel (setLevel m p q) p = q := by
  unfold setLevel
  by_cases hk : hasKey m p
  · simp [hk, replaceLevel_getLevel_self m p q hk]
  · simp only [hk, if_false, Bool.false_eq_true, getLevel_append]
    simp [hk, getLevel]

theorem getLevel_setLevel_ne (m : LevelMap) (p p' : ℤ) (q : List Order)
    (h : p ≠ p') : getLevel (setLevel m p q) p' = getLevel m p' := by
  unfold setLevel
  by_cases hk : hasKey m p
  · simp [hk, replaceLevel_getLevel_ne m p p' q h]
  · simp only [hk, if_false, Bool.false_eq_true, getLevel_append]
    by_cases hk' : hasKey m p'
    · simp [hk']
    · simp only [hk', if_false, Bool.false_eq_true, getLevel]
      have : getLevel m p' = [] := by
        clear hk
        induction m with
        | nil => simp [getLevel]
        | cons e es ih =>
          simp only [hasKey, Bool.or_eq_true, decide_eq_true_eq] at hk'
          push_neg at hk'
          simp only [getLevel, hk'.1, if_false]
          exact ih hk'.2
      simp [this, h]

theorem hasKey_iff_mem (m : LevelMap) (p : ℤ) :
    hasKey m p = true ↔ p ∈ keysOf m := by
  induction m with
  | nil => simp [hasKey, keysOf]
  | cons e es ih =>
    simp only [hasKey, Bool.or_eq_true, decide_eq_true_eq, keysOf, List.map_cons,
      List.mem_cons, ih]
    constructor
    · rintro (h | h)
      · exact Or.inl h.symm
      · exact Or.inr (by simpa [keysOf] using h)
    · rintro (h | h)
      · exact Or.inl h.symm
      · exact Or.inr (by simpa [keysOf] using h)

theorem getLevel_ne_nil_hasKey (m : LevelMap) (p : ℤ)
    (h : getLevel m p ≠ []) : hasKey m p = true := by
  induction m with
  | nil => simp [getLevel] at h
  | cons e es ih =>
    simp only [getLevel] at h
    simp only [hasKey, Bool.or_eq_true, decide_eq_true_eq]
    by_cases he : e.1 = p
    · exact Or.inl he
    · exact Or.inr (ih (by simpa [he] using h))

theorem hasKey_false_getLevel_nil (m : LevelMap) (p : ℤ)
    (h : hasKey m p = false) : getLevel m p = [] := by
  by_contra hne
  rw [getLevel_ne_nil_hasKey m p hne] at h
  simp at h

theorem keysOf_replaceLevel (m : LevelMap) (p : ℤ) (q : List Order) :
    keysOf (replaceLevel m p q) = keysOf m := by
  induction m with
  | nil => simp [replaceLevel]
  | cons e es ih =>
    simp only [replaceLevel, keysOf, List.map_cons]
    by_cases he : e.1 = p
    · simpa [he, keysOf] using ih
    · simpa [he, keysOf] using ih

theorem hasKey_append (m l : LevelMap) (p : ℤ) :
    hasKey (m ++ l) p = (hasKey m p || hasKey l p) := by
  induction m with
  | nil => simp [hasKey]
  | cons e es ih =>
    simp only [List.cons_append, hasKey, Bool.or_assoc]
    rw [show es.append l = es ++ l from rfl, ih]

theorem keysOf_setLevel_of_has (m : LevelMap) (p : ℤ) (q : List Order)
    (h : hasKey m p = true) : keysOf (setLevel m p q) = keysOf m := by
  unfold setLevel
  simp [h, keysOf_replaceLevel m p q]

theorem keysOf_setLevel_of_not (m : LevelMap) (p : ℤ) (q : List Order)
    (h : hasKey m p = false) : keysOf (setLevel m p q) = keysOf m ++ [p] := by
  unfold setLevel
  simp [h, keysOf]

theorem hasKey_replaceLevel (m : LevelMap) (p p' : ℤ) (q : List Order) :
    hasKey (replaceLevel m p q) p' = hasKey m p' := by
  rw [Bool.eq_iff_iff, hasKey_iff_mem, hasKey_iff_mem, keysOf_replaceLevel]

theorem hasKey_setLevel (m : LevelMap) (p p' : ℤ) (q : List Order) :
    hasKey (setLevel m p q) p' = (decide (p = p') || hasKey m p') := by
  unfold setLevel
  cases hk : hasKey m p with
  | false =>
    simp only [Bool.false_eq_true, if_false, hasKey_append, hasKey,
      Bool.or_false]
    rw [Bool.or_comm]
  | true =>
    simp only [if_true, hasKey_replaceLevel]
    by_cases hpp : p = p'
    · subst hpp
      simp [hk]
    · simp [hpp]

theorem sideOrders_append (m l : LevelMap) :
    sideOrders (m ++ l) = sideOrders m ++ sideOrders l := by
  induction m with
  | nil => simp [sideOrders]
  | cons e es ih => simp [sideOrders, ih]

theorem mem_getLevel_sideOrders (m : LevelMap) (p : ℤ) (x : Order)
    (h : x ∈ getLevel m p) : x ∈ sideOrders m := by
  induction m with
  | nil => simp [getLevel] at h
  | cons e es ih =>
    simp only [getLevel] at h
    simp only [sideOrders, List.mem_append]
    by_cases he : e.1 = p
    · exact Or.inl (by simpa [he] using h)
    · exact Or.inr (ih (by simpa [he] using h))

theorem mem_sideOrders_replaceLevel (m : LevelMap) (p : ℤ) (q : List Order)
    (x : Order) (h : x ∈ sideOrders (replaceLevel m p q)) :
    x ∈ q ∨ x ∈ sideOrders m := by
  induction m with
  | nil => simp [replaceLevel, sideOrders] at h
  | cons e es ih =>
    simp only [replaceLevel, sideOrders, List.mem_append] at h
    simp only [sideOrders, List.mem_append]
    by_cases he : e.1 = p
    · rcases h with h | h
      · exact Or.inl (by simpa [he] using h)
      · rcases ih h with h' | h'
        · exact Or.inl h'
        · exact Or.inr (Or.inr h')
    · rcases h with h | h
      · exact Or.inr (Or.inl (by simpa [he] using h))
      · rcases ih h with h' | h'
        · exact Or.inl h'
        · exact Or.inr (Or.inr h')

theorem mem_sideOrders_setLevel (m : LevelMap) (p : ℤ) (q : List Order)
    (x : Order) (h : x ∈ sideOrders (setLevel m p q)) :
    x ∈ q ∨ x ∈ sideOrders m := by
  unfold setLevel at h
  by_cases hk : hasKey m p
  · rw [if_pos hk] at h
    exact mem_sideOrders_replaceLevel m p q x h
  · rw [if_neg hk, sideOrders_append] at h
    simp only [sideOrders, List.append_nil, List.mem_append] at h
    tauto

/-! ## Sorting (Python `sorted`) -/

/-- Sortedness (list `Pairwise`) with respect to a Bool comparator. -/
def SortedBy (le : ℤ → ℤ → Bool) (l : List ℤ) : Prop :=
  List.Pairwise (fun a b => le a b = true) l

theorem perm_insertSortedBy (le : ℤ → ℤ → Bool) (x : ℤ) (l : List ℤ) :
    List.Perm (insertSortedBy le x l) (x :: l) := by
  induction l with
  | nil => simp [insertSortedBy]
  | cons y ys ih =>
    simp only [insertSortedBy]
    by_cases h : le x y
    · simp [h]
    · simp only [h, Bool.false_eq_true, if_false]
      exact (ih.cons y).trans (List.Perm.swap x y ys)

theorem perm_sortKeysBy (le : ℤ → ℤ → Bool) (l : List ℤ) :
    List.Perm (sortKeysBy le l) l := by
  induction l with
  | nil => simp [sortKeysBy]
  | cons y ys ih =>
    simp only [sortKeysBy, List.foldr_cons]
    exact (perm_insertSortedBy le y _).trans (ih.cons y)

theorem mem_sortKeysBy (le : ℤ → ℤ → Bool) (l : List ℤ) (a : ℤ) :
    a ∈ sortKeysBy le l ↔ a ∈ l :=
  (perm_sortKeysBy le l).mem_iff

theorem nodup_sortKeysBy (le : ℤ → ℤ → Bool) (l : List ℤ) (h : l.Nodup) :
    (sortKeysBy le l).Nodup :=
  ((perm_sortKeysBy le l).nodup_iff).mpr h

theorem sorted_insertSortedBy (le : ℤ → ℤ → Bool)
    (htot : ∀ a b, le a b = true ∨ le b a = true)
    (htrans : ∀ a b c, le a b = true → le b c = true → le a c = true)
    (x : ℤ) (l : List ℤ)
    (h : SortedBy le l) : SortedBy le (insertSortedBy le x l) := by
  induction l with
  | nil => simp [insertSortedBy, SortedBy]
  | cons y ys ih =>
    rcases h with _ | ⟨hy, hys⟩
    simp only [insertSortedBy]
    by_cases hxy : le x y
    · simp only [hxy, if_true]
      refine List.Pairwise.cons ?_ (List.Pairwise.cons hy hys)
      intro b hb
      rcases List.mem_cons.mp hb with hbx | hb
      · rw [hbx]; exact hxy
      · exact htrans x y b hxy (hy b hb)
    · simp only [hxy, Bool.false_eq_true, if_false]
      have hyx : le y x = true := by
        rcases htot x y with h' | h'
        · exact absurd h' hxy
        · exact h'
      refine List.Pairwise.cons ?_ (ih hys)
      intro b hb
      rcases List.mem_cons.mp ((perm_insertSortedBy le x ys).mem_iff.mp hb) with hbx | hb
      · rw [hbx]; exact hyx
      · exact hy b hb

theorem sorted_sortKeysBy (le : ℤ → ℤ → Bool)
    (htot : ∀ a b, le a b = true ∨ le b a = true)
    (htrans : ∀ a b c, le a b = true → le b c = true → le a c = true)
    (l : List ℤ) : SortedBy le (sortKeysBy le l) := by
  induction l with
  | nil => simp [sortKeysBy, SortedBy]
  | cons y ys ih =>
    simp only [sortKeysBy, List.foldr_cons]
    exact sorted_insertSortedBy le htot htrans y _ ih

/-! ## Lemmas about matching at a single price level -/

def sumQ (l : List (String × Fill)) : ℤ :=
  (l.map (fun f => f.2.quantity)).sum

/-- Greedy FIFO quantity discipline of a resting-fill list: each fill takes
the minimum of the incoming order's remaining quantity at that moment
(`R` minus everything already filled) and the matched resting order's
remaining quantity at that moment (recoverable from the record as
`remaining_quantity + quantity`, since the record stores the post-match
remainder). -/
def FifoMin : ℤ → List (String × Fill) → Prop
  | _, [] => True
  | R, f :: fs =>
    f.2.quantity = min R (f.2.remaining_quantity + f.2.quantity) ∧
      FifoMin (R - f.2.quantity) fs

/-- The two records of one match agree on fill_id, price, the
buyer/seller pair and the (strictly positive) quantity. -/
def PairedFills (a b : String × Fill) : Prop :=
  a.2.fill_id = b.2.fill_id ∧ a.2.price = b.2.price ∧
  a.2.buyer_id = b.2.buyer_id ∧ a.2.seller_id = b.2.seller_id ∧
  a.2.quantity = b.2.quantity ∧ 0 < a.2.quantity

theorem matchAtPrice_nonpos (p : ℤ) (l : List Order) (o : Order)
    (h : o.remaining_quantity ≤ 0) : matchAtPrice p l o = ⟨o, l, [], []⟩ := by
  induction l generalizing o with
  | nil => rfl
  | cons r rs ih =>
    have hfq : min o.remaining_quantity r.remaining_quantity ≤ 0 :=
      le_trans (min_le_left _ _) h
    simp [matchAtPrice, hfq, ih o h]

theorem matchAtPrice_ord (p : ℤ) (l : List Order) (o : Order) :
    (matchAtPrice p l o).ord =
      { o with remaining_quantity := (matchAtPrice p l o).ord.remaining_quantity } := by
  induction l generalizing o with
  | nil => rfl
  | cons r rs ih =>
    simp only [matchAtPrice]
    by_cases hfq : min o.remaining_quantity r.remaining_quantity ≤ 0
    · simpa [hfq] using ih o
    · simp only [hfq, if_false]
      by_cases hr1 : r.remaining_quantity - min o.remaining_quantity r.remaining_quantity ≤ 0
      · simpa [hr1] using
          ih { o with remaining_quantity :=
            o.remaining_quantity - min o.remaining_quantity r.remaining_quantity }
      · simpa [hr1] using
          ih { o with remaining_quantity :=
            o.remaining_quantity - min o.remaining_quantity r.remaining_quantity }

theorem matchAtPrice_rem (p : ℤ) (l : List Order) (o : Order) :
    (matchAtPrice p l o).ord.remaining_quantity =
      o.remaining_quantity - sumQ (matchAtPrice p l o).restF := by
  induction l generalizing o with
  | nil => simp [matchAtPrice, sumQ]
  | cons r rs ih =>
    simp only [matchAtPrice]
    by_cases hfq : min o.remaining_quantity r.remaining_quantity ≤ 0
    · simpa [hfq] using ih o
    · simp only [hfq, if_false]
      by_cases hr1 : r.remaining_quantity - min o.remaining_quantity r.remaining_quantity ≤ 0
      · have := ih { o with remaining_quantity :=
          o.remaining_quantity - min o.remaining_quantity r.remaining_quantity }
        simp only [hr1, if_true] at *
        simp [sumQ, mkRestingFill] at *
        omega
      · have := ih { o with remaining_quantity :=
          o.remaining_quantity - min o.remaining_quantity r.remaining_quantity }
        simp only [hr1, if_false] at *
        simp [sumQ, mkRestingFill] at *
        omega

theorem matchAtPrice_level_provenance (p : ℤ) (l : List Order) (o : Order) :
    ∀ x ∈ (matchAtPrice p l o).level, ∃ r ∈ l,
      x.order_id = r.order_id ∧ x.engine_origin_addr = r.engine_origin_addr ∧
      x.remaining_quantity ≤ r.remaining_quantity := by
  induction l generalizing o with
  | nil => intro x hx; simp [matchAtPrice] at hx
  | cons r rs ih =>
    intro x hx
    simp only [matchAtPrice] at hx
    by_cases hfq : min o.remaining_quantity r.remaining_quantity ≤ 0
    · simp only [hfq, if_true] at hx
      rcases List.mem_cons.mp hx with hxr | hx
      · exact ⟨r, List.mem_cons_self r rs, by rw [hxr], by rw [hxr], by rw [hxr]⟩
      · obtain ⟨r0, hr0, h1, h2, h3⟩ := ih o x hx
        exact ⟨r0, List.mem_cons_of_mem r hr0, h1, h2, h3⟩
    · simp only [hfq, if_false] at hx
      by_cases hr1 : r.remaining_quantity - min o.remaining_quantity r.remaining_quantity ≤ 0
      · simp only [hr1, if_true] at hx
        obtain ⟨r0, hr0, h1, h2, h3⟩ := ih _ x hx
        exact ⟨r0, List.mem_cons_of_mem r hr0, h1, h2, h3⟩
      · simp only [hr1, if_false] at hx
        rcases List.mem_cons.mp hx with rfl | hx
        · refine ⟨r, List.mem_cons_self r rs, rfl, rfl, ?_⟩
          have : 0 < min o.remaining_quantity r.remaining_quantity := lt_of_not_ge hfq
          simp only
          omega
        · obtain ⟨r0, hr0, h1, h2, h3⟩ := ih _ x hx
          exact ⟨r0, List.mem_cons_of_mem r hr0, h1, h2, h3⟩

theorem matchAtPrice_level_pos (p : ℤ) (l : List Order) (o : Order)
    (hl : ∀ r ∈ l, 0 < r.remaining_quantity) :
    ∀ x ∈ (matchAtPrice p l o).level, 0 < x.remaining_quantity := by
  induction l generalizing o with
  | nil => intro x hx; simp [matchAtPrice] at hx
  | cons r rs ih =>
    have hr : 0 < r.remaining_quantity := hl r (List.mem_cons_self r rs)
    have hrs : ∀ x ∈ rs, 0 < x.remaining_quantity :=
      fun x hx => hl x (List.mem_cons_of_mem r hx)
    intro x hx
    simp only [matchAtPrice] at hx
    by_cases hfq : min o.remaining_quantity r.remaining_quantity ≤ 0
    · simp only [hfq, if_true] at hx
      rcases List.mem_cons.mp hx with rfl | hx
      · exact hr
      · exact ih o hrs x hx
    · simp only [hfq, if_false] at hx
      by_cases hr1 : r.remaining_quantity - min o.remaining_quantity r.remaining_quantity ≤ 0
      · simp only [hr1, if_true] at hx
        exact ih _ hrs x hx
      · simp only [hr1, if_false] at hx
        rcases List.mem_cons.mp hx with rfl | hx
        · simp only
          omega
        · exact ih _ hrs x hx

theorem matchAtPrice_dichotomy (p : ℤ) (l : List Order) (o : Order)
    (hl : ∀ r ∈ l, 0 < r.remaining_quantity) :
    (matchAtPrice p l o).level = [] ∨
      (matchAtPrice p l o).ord.remaining_quantity ≤ 0 := by
  induction l generalizing o with
  | nil => exact Or.inl rfl
  | cons r rs ih =>
    have hr : 0 < r.remaining_quantity := hl r (List.mem_cons_self r rs)
    have hrs : ∀ x ∈ rs, 0 < x.remaining_quantity :=
      fun x hx => hl x (List.mem_cons_of_mem r hx)
    simp only [matchAtPrice]
    by_cases hfq : min o.remaining_quantity r.remaining_quantity ≤ 0
    · have ho : o.remaining_quantity ≤ 0 := by omega
      right
      simp only [hfq, if_true]
      rw [matchAtPrice_nonpos p rs o ho]
      exact ho
    · simp only [hfq, if_false]
      by_cases hr1 : r.remaining_quantity - min o.remaining_quantity r.remaining_quantity ≤ 0
      · simpa [hr1] using ih _ hrs
      · right
        simp only [hr1, if_false]
        have hor : o.remaining_quantity < r.remaining_quantity := by omega
        have ho1 : o.remaining_quantity - min o.remaining_quantity r.remaining_quantity ≤ 0 := by
          omega
        rw [matchAtPrice_nonpos p rs _ (by simpa using ho1)]
        simpa using ho1

theorem matchAtPrice_prices (p : ℤ) (l : List Order) (o : Order) :
    (∀ f ∈ (matchAtPrice p l o).incF, f.2.price = p) ∧
      (∀ f ∈ (matchAtPrice p l o).restF, f.2.price = p) := by
  induction l generalizing o with
  | nil => simp [matchAtPrice]
  | cons r rs ih =>
    simp only [matchAtPrice]
    by_cases hfq : min o.remaining_quantity r.remaining_quantity ≤ 0
    · simpa [hfq] using ih o
    · simp only [hfq, if_false]
      obtain ⟨ih1, ih2⟩ := ih { o with remaining_quantity := o.remaining_quantity - min o.remaining_quantity r.remaining_quantity }
      by_cases hr1 : r.remaining_quantity - min o.remaining_quantity r.remaining_quantity ≤ 0
      · simp only [hr1, if_true]
        constructor
        · intro f hf
          rcases List.mem_cons.mp hf with hfe | hf
          · rw [hfe]; rfl
          · exact ih1 f hf
        · intro f hf
          rcases List.mem_cons.mp hf with hfe | hf
          · rw [hfe]; rfl
          · exact ih2 f hf
      · simp only [hr1, if_false]
        constructor
        · intro f hf
          rcases List.mem_cons.mp hf with hfe | hf
          · rw [hfe]; rfl
          · exact ih1 f hf
        · intro f hf
          rcases List.mem_cons.mp hf with hfe | hf
          · rw [hfe]; rfl
          · exact ih2 f hf

theorem matchAtPrice_paired (p : ℤ) (l : List Order) (o : Order) :
    List.Forall₂ PairedFills (matchAtPrice p l o).incF (matchAtPrice p l o).restF := by
  induction l generalizing o with
  | nil => simp [matchAtPrice]
  | cons r rs ih =>
    simp only [matchAtPrice]
    by_cases hfq : min o.remaining_quantity r.remaining_quantity ≤ 0
    · simpa [hfq] using ih o
    · simp only [hfq, if_false]
      have hpair : PairedFills (o.client_id, mkIncomingFill o r p (min o.remaining_quantity r.remaining_quantity)) ({ r with remaining_quantity := r.remaining_quantity - min o.remaining_quantity r.remaining_quantity }.client_id, mkRestingFill o { r with remaining_quantity := r.remaining_quantity - min o.remaining_quantity r.remaining_quantity } p (min o.remaining_quantity r.remaining_quantity)) := by
        refine ⟨rfl, rfl, rfl, rfl, rfl, ?_⟩
        simpa [mkIncomingFill] using lt_of_not_ge hfq
      by_cases hr1 : r.remaining_quantity - min o.remaining_quantity r.remaining_quantity ≤ 0
      · simp only [hr1, if_true]
        exact List.Forall₂.cons hpair (ih _)
      · simp only [hr1, if_false]
        exact List.Forall₂.cons hpair (ih _)

theorem matchAtPrice_fifoMin (p : ℤ) (l : List Order) (o : Order) :
    FifoMin o.remaining_quantity (matchAtPrice p l o).restF := by
  induction l generalizing o with
  | nil => simp [matchAtPrice, FifoMin]
  | cons r rs ih =>
    simp only [matchAtPrice]
    by_cases hfq : min o.remaining_quantity r.remaining_quantity ≤ 0
    · simpa [hfq] using ih o
    · simp only [hfq, if_false]
      have htail := ih { o with remaining_quantity := o.remaining_quantity - min o.remaining_quantity r.remaining_quantity }
      by_cases hr1 : r.remaining_quantity - min o.remaining_quantity r.remaining_quantity ≤ 0
      · simp only [hr1, if_true, FifoMin]
        refine ⟨?_, ?_⟩
        · simp only [mkRestingFill]
          omega
        · simpa [mkRestingFill] using htail
      · simp only [hr1, if_false, FifoMin]
        refine ⟨?_, ?_⟩
        · simp only [mkRestingFill]
          omega
        · simpa [mkRestingFill] using htail

theorem matchAtPrice_fifo_sublist (p : ℤ) (l : List Order) (o : Order) :
    List.Sublist ((matchAtPrice p l o).restF.map (fun f => f.2.order_id))
      (l.map (fun r => r.order_id)) := by
  induction l generalizing o with
  | nil => simp [matchAtPrice]
  | cons r rs ih =>
    simp only [matchAtPrice]
    by_cases hfq : min o.remaining_quantity r.remaining_quantity ≤ 0
    · simp only [hfq, if_true, List.map_cons]
      exact (ih o).cons _
    · simp only [hfq, if_false]
      by_cases hr1 : r.remaining_quantity - min o.remaining_quantity r.remaining_quantity ≤ 0
      · simp only [hr1, if_true, List.map_cons, mkRestingFill]
        exact (ih _).cons₂ _
      · simp only [hr1, if_false, List.map_cons, mkRestingFill]
        exact (ih _).cons₂ _

/-! ## Lemmas about the level-iteration loop of add_order -/

theorem sumQ_cons (f : String × Fill) (fs : List (String × Fill)) :
    sumQ (f :: fs) = f.2.quantity + sumQ fs := by
  simp [sumQ]

theorem FifoMin_append (R : ℤ) (l1 l2 : List (String × Fill))
    (h1 : FifoMin R l1) (h2 : FifoMin (R - sumQ l1) l2) : FifoMin R (l1 ++ l2) := by
  induction l1 generalizing R with
  | nil =>
    simpa [sumQ] using h2
  | cons f fs ih =>
    obtain ⟨hf, hfs⟩ := h1
    refine ⟨hf, ih (R - f.2.quantity) hfs ?_⟩
    have : R - f.2.quantity - sumQ fs = R - sumQ (f :: fs) := by
      rw [sumQ_cons]; ring
    rw [this]
    exact h2

theorem matchLoop_nonpos (tooFar : ℤ → Bool) (ks : List ℤ) (o : Order)
    (m : LevelMap) (h : o.remaining_quantity ≤ 0) :
    matchLoop tooFar ks o m = ⟨o, m, [], []⟩ := by
  cases ks with
  | nil => rfl
  | cons p ps =>
    simp [matchLoop, h]

theorem matchLoop_frame (tooFar : ℤ → Bool) (ks : List ℤ) (o : Order)
    (m : LevelMap) (j : ℤ) (hj : j ∉ ks) :
    getLevel (matchLoop tooFar ks o m).book j = getLevel m j := by
  induction ks generalizing o m with
  | nil => rfl
  | cons p ps ih =>
    have hjp : p ≠ j := fun h => hj (h ▸ List.mem_cons_self p ps)
    have hjs : j ∉ ps := fun h => hj (List.mem_cons_of_mem p h)
    simp only [matchLoop]
    by_cases hb : tooFar p || decide (o.remaining_quantity ≤ 0)
    · simp [hb]
    · simp only [hb, Bool.false_eq_true, if_false]
      rw [ih _ _ hjs, getLevel_setLevel_ne _ _ _ _ hjp]

theorem matchLoop_shrink (tooFar : ℤ → Bool) (ks : List ℤ) (o : Order)
    (m : LevelMap) (j : ℤ) (hj : getLevel m j = []) :
    getLevel (matchLoop tooFar ks o m).book j = [] := by
  induction ks generalizing o m with
  | nil => exact hj
  | cons p ps ih =>
    simp only [matchLoop]
    by_cases hb : tooFar p || decide (o.remaining_quantity ≤ 0)
    · simpa [hb] using hj
    · simp only [hb, Bool.false_eq_true, if_false]
      apply ih
      by_cases hpj : p = j
      · subst hpj
        rw [getLevel_setLevel_self]
        rw [hj]
        rfl
      · rw [getLevel_setLevel_ne _ _ _ _ hpj]
        exact hj

theorem matchLoop_pos (tooFar : ℤ → Bool) (ks : List ℤ) (o : Order)
    (m : LevelMap) (hm : ∀ x ∈ sideOrders m, 0 < x.remaining_quantity) :
    ∀ x ∈ sideOrders (matchLoop tooFar ks o m).book, 0 < x.remaining_quantity := by
  induction ks generalizing o m with
  | nil => exact hm
  | cons p ps ih =>
    simp only [matchLoop]
    by_cases hb : tooFar p || decide (o.remaining_quantity ≤ 0)
    · simpa [hb] using hm
    · simp only [hb, Bool.false_eq_true, if_false]
      apply ih
      intro x hx
      rcases mem_sideOrders_setLevel _ _ _ _ hx with hx | hx
      · exact matchAtPrice_level_pos p (getLevel m p) o
          (fun r hr => hm r (mem_getLevel_sideOrders m p r hr)) x hx
      · exact hm x hx

theorem matchLoop_keys (tooFar : ℤ → Bool) (ks : List ℤ) (o : Order)
    (m : LevelMap) (hks : ∀ p ∈ ks, hasKey m p = true) :
    keysOf (matchLoop tooFar ks o m).book = keysOf m := by
  induction ks generalizing o m with
  | nil => rfl
  | cons p ps ih =>
    simp only [matchLoop]
    by_cases hb : tooFar p || decide (o.remaining_quantity ≤ 0)
    · simp [hb]
    · simp only [hb, Bool.false_eq_true, if_false]
      have hp : hasKey m p = true := hks p (List.mem_cons_self p ps)
      rw [ih]
      · exact keysOf_setLevel_of_has m p _ hp
      · intro q hq
        rw [hasKey_setLevel]
        simp only [Bool.or_eq_true, decide_eq_true_eq]
        exact Or.inr (hks q (List.mem_cons_of_mem p hq))

theorem matchLoop_empties (le : ℤ → ℤ → Bool) (tooFar : ℤ → Bool)
    (ks : List ℤ) (o : Order) (m : LevelMap)
    (hsort : SortedBy le ks) (hnd : ks.Nodup)
    (hmono : ∀ a b, le a b = true → tooFar a = true → tooFar b = true)
    (hm : ∀ x ∈ sideOrders m, 0 < x.remaining_quantity)
    (hrem : 0 < (matchLoop tooFar ks o m).ord.remaining_quantity) :
    ∀ k ∈ ks, tooFar k = false → getLevel (matchLoop tooFar ks o m).book k = [] := by
  induction ks generalizing o m with
  | nil => intro k hk; simp at hk
  | cons p ps ih =>
    by_cases hb : tooFar p || decide (o.remaining_quantity ≤ 0)
    · rw [show matchLoop tooFar (p :: ps) o m = ⟨o, m, [], []⟩ by
        simp [matchLoop, hb]] at hrem ⊢
      have hop : ¬(o.remaining_quantity ≤ 0) := by
        simpa using hrem
      have htf : tooFar p = true := by
        rcases Bool.or_eq_true_iff.mp hb with h | h
        · exact h
        · exact absurd (of_decide_eq_true h) hop
      intro k hk hkf
      rcases List.mem_cons.mp hk with rfl | hk
      · rw [htf] at hkf; cases hkf
      · have hle : le p k = true := (List.pairwise_cons.mp hsort).1 k hk
        rw [hmono p k hle htf] at hkf; cases hkf
    · have heq : matchLoop tooFar (p :: ps) o m =
          ⟨(matchLoop tooFar ps (matchAtPrice p (getLevel m p) o).ord
              (setLevel m p (matchAtPrice p (getLevel m p) o).level)).ord,
           (matchLoop tooFar ps (matchAtPrice p (getLevel m p) o).ord
              (setLevel m p (matchAtPrice p (getLevel m p) o).level)).book,
           (matchAtPrice p (getLevel m p) o).incF ++
             (matchLoop tooFar ps (matchAtPrice p (getLevel m p) o).ord
              (setLevel m p (matchAtPrice p (getLevel m p) o).level)).incF,
           (matchAtPrice p (getLevel m p) o).restF ++
             (matchLoop tooFar ps (matchAtPrice p (getLevel m p) o).ord
              (setLevel m p (matchAtPrice p (getLevel m p) o).level)).restF⟩ := by
        simp only [matchLoop, match_order_at_price, hb, Bool.false_eq_true, if_false]
      rw [heq] at hrem ⊢
      simp only at hrem ⊢
      have hlevpos : ∀ r ∈ getLevel m p, 0 < r.remaining_quantity :=
        fun r hr => hm r (mem_getLevel_sideOrders m p r hr)
      have hlmpos : 0 < (matchAtPrice p (getLevel m p) o).ord.remaining_quantity := by
        by_contra hc
        push_neg at hc
        rw [matchLoop_nonpos tooFar ps _ _ hc] at hrem
        exact absurd hrem (by simpa using hc)
      have hlevel : (matchAtPrice p (getLevel m p) o).level = [] := by
        rcases matchAtPrice_dichotomy p (getLevel m p) o hlevpos with h | h
        · exact h
        · exact absurd hlmpos (by omega)
      have hm' : ∀ x ∈ sideOrders (setLevel m p (matchAtPrice p (getLevel m p) o).level),
          0 < x.remaining_quantity := by
        intro x hx
        rcases mem_sideOrders_setLevel _ _ _ _ hx with hx | hx
        · exact matchAtPrice_level_pos p (getLevel m p) o hlevpos x hx
        · exact hm x hx
      intro k hk hkf
      rcases List.mem_cons.mp hk with rfl | hk
      · have hknps : k ∉ ps := (List.nodup_cons.mp hnd).1
        rw [matchLoop_frame _ _ _ _ _ hknps, getLevel_setLevel_self, hlevel]
      · exact ih _ _ (List.pairwise_cons.mp hsort).2 (List.nodup_cons.mp hnd).2
          hm' hrem k hk hkf

theorem matchLoop_break (tooFar : ℤ → Bool) (p : ℤ) (ps : List ℤ) (o : Order)
    (m : LevelMap) (hb : (tooFar p || decide (o.remaining_quantity ≤ 0)) = true) :
    matchLoop tooFar (p :: ps) o m = ⟨o, m, [], []⟩ := by
  simp [matchLoop, hb]

theorem matchLoop_cons_eq (tooFar : ℤ → Bool) (p : ℤ) (ps : List ℤ) (o : Order)
    (m : LevelMap) (hb : (tooFar p || decide (o.remaining_quantity ≤ 0)) = false) :
    matchLoop tooFar (p :: ps) o m =
      ⟨(matchLoop tooFar ps (matchAtPrice p (getLevel m p) o).ord
          (setLevel m p (matchAtPrice p (getLevel m p) o).level)).ord,
       (matchLoop tooFar ps (matchAtPrice p (getLevel m p) o).ord
          (setLevel m p (matchAtPrice p (getLevel m p) o).level)).book,
       (matchAtPrice p (getLevel m p) o).incF ++
         (matchLoop tooFar ps (matchAtPrice p (getLevel m p) o).ord
          (setLevel m p (matchAtPrice p (getLevel m p) o).level)).incF,
       (matchAtPrice p (getLevel m p) o).restF ++
         (matchLoop tooFar ps (matchAtPrice p (getLevel m p) o).ord
          (setLevel m p (matchAtPrice p (getLevel m p) o).level)).restF⟩ := by
  simp only [matchLoop, match_order_at_price, hb, Bool.false_eq_true, if_false]

theorem matchLoop_price_mem (tooFar : ℤ → Bool) (ks : List ℤ) (o : Order)
    (m : LevelMap) :
    (∀ f ∈ (matchLoop tooFar ks o m).incF,
        f.2.price ∈ ks ∧ tooFar f.2.price = false) ∧
    (∀ f ∈ (matchLoop tooFar ks o m).restF,
        f.2.price ∈ ks ∧ tooFar f.2.price = false) := by
  induction ks generalizing o m with
  | nil => simp [matchLoop]
  | cons p ps ih =>
    cases hb : (tooFar p || decide (o.remaining_quantity ≤ 0)) with
    | true => simp [matchLoop_break tooFar p ps o m hb]
    | false =>
      rw [matchLoop_cons_eq tooFar p ps o m hb]
      have htfp : tooFar p = false := by
        rcases Bool.or_eq_false_iff.mp hb with ⟨h, _⟩
        exact h
      obtain ⟨hlm1, hlm2⟩ := matchAtPrice_prices p (getLevel m p) o
      obtain ⟨ihr1, ihr2⟩ := ih (matchAtPrice p (getLevel m p) o).ord
        (setLevel m p (matchAtPrice p (getLevel m p) o).level)
      constructor
      · intro f hf
        simp only [List.mem_append] at hf
        rcases hf with hf | hf
        · rw [hlm1 f hf]
          exact ⟨List.mem_cons_self p ps, htfp⟩
        · obtain ⟨h1, h2⟩ := ihr1 f hf
          exact ⟨List.mem_cons_of_mem p h1, h2⟩
      · intro f hf
        simp only [List.mem_append] at hf
        rcases hf with hf | hf
        · rw [hlm2 f hf]
          exact ⟨List.mem_cons_self p ps, htfp⟩
        · obtain ⟨h1, h2⟩ := ihr2 f hf
          exact ⟨List.mem_cons_of_mem p h1, h2⟩

theorem pairwise_all_eq (le : ℤ → ℤ → Bool) (L : List (String × Fill)) (p : ℤ)
    (hall : ∀ f ∈ L, f.2.price = p) (hrefl : le p p = true) :
    List.Pairwise (fun a b => le a.2.price b.2.price = true) L := by
  induction L with
  | nil => exact List.Pairwise.nil
  | cons f fs ih =>
    refine List.Pairwise.cons ?_ (ih (fun g hg => hall g (List.mem_cons_of_mem f hg)))
    intro g hg
    rw [hall f (List.mem_cons_self f fs), hall g (List.mem_cons_of_mem f hg)]
    exact hrefl

theorem matchLoop_fills_sorted (le : ℤ → ℤ → Bool) (tooFar : ℤ → Bool)
    (ks : List ℤ) (o : Order) (m : LevelMap)
    (hsort : SortedBy le ks) (hrefl : ∀ a, le a a = true) :
    List.Pairwise (fun a b => le a.2.price b.2.price = true)
        (matchLoop tooFar ks o m).incF ∧
    List.Pairwise (fun a b => le a.2.price b.2.price = true)
        (matchLoop tooFar ks o m).restF := by
  induction ks generalizing o m with
  | nil => simp [matchLoop]
  | cons p ps ih =>
    cases hb : (tooFar p || decide (o.remaining_quantity ≤ 0)) with
    | true => simp [matchLoop_break tooFar p ps o m hb]
    | false =>
      rw [matchLoop_cons_eq tooFar p ps o m hb]
      obtain ⟨hsp, hsps⟩ := List.pairwise_cons.mp hsort
      obtain ⟨hlm1, hlm2⟩ := matchAtPrice_prices p (getLevel m p) o
      obtain ⟨ihr1, ihr2⟩ := ih (matchAtPrice p (getLevel m p) o).ord
        (setLevel m p (matchAtPrice p (getLevel m p) o).level) hsps
      obtain ⟨mem1, mem2⟩ := matchLoop_price_mem tooFar ps
        (matchAtPrice p (getLevel m p) o).ord
        (setLevel m p (matchAtPrice p (getLevel m p) o).level)
      constructor
      · rw [List.pairwise_append]
        refine ⟨pairwise_all_eq le _ p hlm1 (hrefl p), ihr1, ?_⟩
        intro a ha b hb2
        rw [hlm1 a ha]
        exact hsp b.2.price (mem1 b hb2).1
      · rw [List.pairwise_append]
        refine ⟨pairwise_all_eq le _ p hlm2 (hrefl p), ihr2, ?_⟩
        intro a ha b hb2
        rw [hlm2 a ha]
        exact hsp b.2.price (mem2 b hb2).1

theorem matchLoop_paired (tooFar : ℤ → Bool) (ks : List ℤ) (o : Order)
    (m : LevelMap) :
    List.Forall₂ PairedFills (matchLoop tooFar ks o m).incF
      (matchLoop tooFar ks o m).restF := by
  induction ks generalizing o m with
  | nil => simp [matchLoop]
  | cons p ps ih =>
    cases hb : (tooFar p || decide (o.remaining_quantity ≤ 0)) with
    | true => simp [matchLoop_break tooFar p ps o m hb]
    | false =>
      rw [matchLoop_cons_eq tooFar p ps o m hb]
      exact List.rel_append (matchAtPrice_paired p (getLevel m p) o) (ih _ _)

theorem sumQ_append (l1 l2 : List (String × Fill)) :
    sumQ (l1 ++ l2) = sumQ l1 + sumQ l2 := by
  simp [sumQ]

theorem matchLoop_rem (tooFar : ℤ → Bool) (ks : List ℤ) (o : Order)
    (m : LevelMap) :
    (matchLoop tooFar ks o m).ord.remaining_quantity =
      o.remaining_quantity - sumQ (matchLoop tooFar ks o m).restF := by
  induction ks generalizing o m with
  | nil => simp [matchLoop, sumQ]
  | cons p ps ih =>
    cases hb : (tooFar p || decide (o.remaining_quantity ≤ 0)) with
    | true => simp [matchLoop_break tooFar p ps o m hb, sumQ]
    | false =>
      rw [matchLoop_cons_eq tooFar p ps o m hb]
      simp only [sumQ_append]
      rw [ih _ _, matchAtPrice_rem]
      ring

theorem matchLoop_fifoMin (tooFar : ℤ → Bool) (ks : List ℤ) (o : Order)
    (m : LevelMap) :
    FifoMin o.remaining_quantity (matchLoop tooFar ks o m).restF := by
  induction ks generalizing o m with
  | nil => simp [matchLoop, FifoMin]
  | cons p ps ih =>
    cases hb : (tooFar p || decide (o.remaining_quantity ≤ 0)) with
    | true => simp [matchLoop_break tooFar p ps o m hb, FifoMin]
    | false =>
      rw [matchLoop_cons_eq tooFar p ps o m hb]
      simp only
      apply FifoMin_append _ _ _ (matchAtPrice_fifoMin p (getLevel m p) o)
      rw [← matchAtPrice_rem]
      exact ih _ _

theorem matchLoop_ord (tooFar : ℤ → Bool) (ks : List ℤ) (o : Order)
    (m : LevelMap) :
    (matchLoop tooFar ks o m).ord =
      { o with remaining_quantity := (matchLoop tooFar ks o m).ord.remaining_quantity } := by
  induction ks generalizing o m with
  | nil => rfl
  | cons p ps ih =>
    cases hb : (tooFar p || decide (o.remaining_quantity ≤ 0)) with
    | true => simp [matchLoop_break tooFar p ps o m hb]
    | false =>
      rw [matchLoop_cons_eq tooFar p ps o m hb]
      simp only
      rw [ih (matchAtPrice p (getLevel m p) o).ord _]
      rw [matchAtPrice_ord p (getLevel m p) o]

theorem matchLoop_provenance (tooFar : ℤ → Bool) (ks : List ℤ) (o : Order)
    (m : LevelMap) :
    ∀ x ∈ sideOrders (matchLoop tooFar ks o m).book, ∃ r ∈ sideOrders m,
      x.order_id = r.order_id ∧ x.engine_origin_addr = r.engine_origin_addr := by
  induction ks generalizing o m with
  | nil => intro x hx; exact ⟨x, hx, rfl, rfl⟩
  | cons p ps ih =>
    cases hb : (tooFar p || decide (o.remaining_quantity ≤ 0)) with
    | true =>
      rw [matchLoop_break tooFar p ps o m hb]
      intro x hx
      exact ⟨x, hx, rfl, rfl⟩
    | false =>
      rw [matchLoop_cons_eq tooFar p ps o m hb]
      simp only
      intro x hx
      obtain ⟨y, hy, hy1, hy2⟩ := ih _ _ x hx
      rcases mem_sideOrders_setLevel _ _ _ _ hy with hy' | hy'
      · obtain ⟨r, hr, hr1, hr2⟩ :=
          matchAtPrice_level_provenance p (getLevel m p) o y hy'
        exact ⟨r, mem_getLevel_sideOrders m p r hr, hy1.trans hr1, hy2.trans hr2.1⟩
      · exact ⟨y, hy', hy1, hy2⟩

/-! ## Concrete inputs used by counterexamples and witnesses -/

def exEmptyBook : OrderBook := ⟨"X", [], []⟩

/-- Resting SELL order from a client whose origin engine is E2. -/
def exSellE2 : Order := ⟨"S1", "alice", "X", Side.SELL, 100, 5, 5, OrderStatus.NEW, "E2"⟩

/-- Incoming BUY order from a client whose origin engine is E1. -/
def exBuyE1 : Order := ⟨"B1", "bob", "X", Side.BUY, 100, 5, 5, OrderStatus.NEW, "E1"⟩

/-- Book holding only the resting SELL from origin E2. -/
def exBookE2 : OrderBook := ⟨"X", [], [(100, [exSellE2])]⟩

/-- Resting SELL from an E1 client, matching exBuyE1 at 100. -/
def exSellE1 : Order := ⟨"S1", "alice", "X", Side.SELL, 100, 5, 5, OrderStatus.NEW, "E1"⟩

/-- Engine E1 with empty books, orders and global-best view. -/
def exEngineE1 : EngineState := ⟨"E1", [], [], []⟩

/-- Engine E1 after it admitted and rested exSellE1. -/
def exEngineE1a : EngineState := (MatchEngine.submit_order exEngineE1 exSellE1).state

/-- Engine E1 after exBuyE1 then fully consumed the resting SELL. -/
def exEngineE1b : EngineState := (MatchEngine.submit_order exEngineE1a exBuyE1).state

/-! ## Claim C9 -/

/-- Projection used to state which exception cancel_order raised. -/
def errorMessageOf : Except String (EngineState × Option Order) → Option String
  | Except.error s => some s
  | Except.ok _ => none


/-- Claim C9 (confirmed): cancel_order is partial on filled orders.  In the
reachable engine state built by submitting a SELL that rests and then a
BUY that fully consumes it, the consumed order's status is still NEW, its
price key is still present in the asks map with an empty level list, and
`CancelOrder` of that order surfaces status ERROR (the uncaught ValueError
of `list.remove`), not NOT_FOUND and not SUCCESS. -/
theorem cancel_order_filled_order_gives_error :
    (alookup exEngineE1b.orders "S1").map (fun o => o.status) = some OrderStatus.NEW ∧
    hasKey ((alookup exEngineE1b.orderbooks "X").getD exEmptyBook).asks 100 = true ∧
    getLevel ((alookup exEngineE1b.orderbooks "X").getD exEmptyBook).asks 100 = [] ∧
    errorMessageOf (MatchEngine.cancel_order exEngineE1b "S1") = some "ValueError" ∧
    MatchingServicer.CancelOrder exEngineE1b "S1" = CancelStatus.ERROR := by
  decide

/-! ## Claim C2 -/

/-- Claim C2 (code_bug): at the failing input (incoming BUY with origin
engine E1 matching the resting SELL of an E2-origin client), both the
incoming-fill record and the resting-fill record are addressed to E1 —
the source writes `incoming_order.engine_origin_addr` into the resting
record too, so the resting client's record does not carry its own origin
engine E2; the two records do share the deterministic fill_id. -/
theorem resting_fill_destination_is_incoming_origin :
    ((exBookE2.add_order exBuyE1).resting_fills.map
      (fun f => f.2.engine_destination_addr)) = ["E1"] ∧
    ((exBookE2.add_order exBuyE1).incoming_fills.map
      (fun f => f.2.engine_destination_addr)) = ["E1"] ∧
    exSellE2.engine_origin_addr = "E2" ∧
    ((exBookE2.add_order exBuyE1).resting_fills.map (fun f => f.1)) = ["alice"] ∧
    ((exBookE2.add_order exBuyE1).incoming_fills.map (fun f => f.2.fill_id)) =
      ["FILL;incoming:B1;resting:S1"] ∧
    ((exBookE2.add_order exBuyE1).resting_fills.map (fun f => f.2.fill_id)) =
      ["FILL;incoming:B1;resting:S1"] := by
  decide

/-! ## Claim C1 -/

/-- Synchronizer view advertising a better global bid on peer E2. -/
def exGlobalBest : List (String × BestPair) :=
  [("X", ⟨⟨some 105, some "E2"⟩, ⟨none, none⟩⟩)]

/-- Engine E1 holding that view. -/
def exEngineG : EngineState := ⟨"E1", [], [], exGlobalBest⟩

/-- SELL order whose origin engine is E9, i.e. not this engine. -/
def exSellForeign : Order := ⟨"X1", "carol", "X", Side.SELL, 100, 5, 5, OrderStatus.NEW, "E9"⟩

/-- Claim C1 (counterexample): an order whose origin engine is not this
engine is nevertheless forwarded (submit_order returns islocal = false
with the peer id), refuting "if the order's origin engine is not this
engine it is processed locally unconditionally". -/
theorem submit_order_forwards_foreign_origin :
    (MatchEngine.submit_order exEngineG exSellForeign).islocal = false ∧
    (MatchEngine.submit_order exEngineG exSellForeign).target = some "E2" ∧
    exSellForeign.engine_origin_addr ≠ exEngineG.engine_id := by
  decide

/-- Claim C1 (amended): the routing decision of submit_order never
consults the order's origin-engine field — the whole result (decision,
target, fills, state) is unchanged under any rewrite of that field,
because submit_order first overwrites it with this engine's id — and
whenever the order is forwarded the returned fill lists are empty. -/
theorem submit_order_ignores_origin :
    ∀ (st : EngineState) (o : Order) (a : String),
      MatchEngine.submit_order st { o with engine_origin_addr := a } =
        MatchEngine.submit_order st o ∧
      ((MatchEngine.submit_order st o).islocal = false →
        (MatchEngine.submit_order st o).incoming_fills = [] ∧
        (MatchEngine.submit_order st o).resting_fills = []) := by
  intro st o a
  constructor
  · rfl
  · intro h
    simp only [MatchEngine.submit_order] at h ⊢
    split at h
    all_goals try split at h
    all_goals try split at h
    all_goals simp_all

/-- Witness for the amended C1 theorem at a concrete forwarded order. -/
theorem submit_order_ignores_origin_witness :
    (MatchEngine.submit_order exEngineG { exSellForeign with engine_origin_addr := "Z" } =
      MatchEngine.submit_order exEngineG exSellForeign) ∧
    ((MatchEngine.submit_order exEngineG exSellForeign).incoming_fills = [] ∧
      (MatchEngine.submit_order exEngineG exSellForeign).resting_fills = []) :=
  ⟨(submit_order_ignores_origin exEngineG exSellForeign "Z").1,
   (submit_order_ignores_origin exEngineG exSellForeign "Z").2 (by decide)⟩

/-! ## Claim C5 -/

/-- Resting SELL with quantity 10, deep enough to fill two BUY submissions. -/
def exSellDeep : Order := ⟨"S9", "dave", "X", Side.SELL, 100, 10, 10, OrderStatus.NEW, "E1"⟩

/-- Engine E1 whose book already rests exSellDeep. -/
def exEngineDeep : EngineState := ⟨"E1", [("X", ⟨"X", [], [(100, [exSellDeep])]⟩)], [], []⟩

/-- BUY order crossing exSellDeep. -/
def exBuyHalf : Order := ⟨"B5", "erin", "X", Side.BUY, 100, 5, 5, OrderStatus.NEW, "E1"⟩

/-- Claim C5 (counterexample): resubmitting the same order_id is not
idempotent — the second SubmitOrder of exBuyHalf matches again and
returns a second, non-empty fill list, and the book keeps shrinking. -/
theorem duplicate_submit_not_idempotent :
    (MatchEngine.submit_order exEngineDeep exBuyHalf).incoming_fills.map
      (fun f => f.2.quantity) = [5] ∧
    (MatchEngine.submit_order
        (MatchEngine.submit_order exEngineDeep exBuyHalf).state exBuyHalf).incoming_fills.map
      (fun f => f.2.quantity) = [5] ∧
    (MatchEngine.submit_order
        (MatchEngine.submit_order exEngineDeep exBuyHalf).state exBuyHalf).state.orderbooks ≠
      (MatchEngine.submit_order exEngineDeep exBuyHalf).state.orderbooks := by
  decide

/-- Claim C5 (amended): the engine performs no duplicate detection at
all — the decision, target, fills and resulting books of submit_order do
not depend on the orders map (the only state that records already-seen
order ids); a duplicate order_id is processed exactly like a fresh
order and its map entry is overwritten. -/
theorem submit_order_ignores_orders_map :
    ∀ (e : String) (obs : List (String × OrderBook))
      (gb : List (String × BestPair))
      (or1 or2 : List (String × Order)) (o : Order),
      (MatchEngine.submit_order ⟨e, obs, or1, gb⟩ o).islocal =
        (MatchEngine.submit_order ⟨e, obs, or2, gb⟩ o).islocal ∧
      (MatchEngine.submit_order ⟨e, obs, or1, gb⟩ o).target =
        (MatchEngine.submit_order ⟨e, obs, or2, gb⟩ o).target ∧
      (MatchEngine.submit_order ⟨e, obs, or1, gb⟩ o).incoming_fills =
        (MatchEngine.submit_order ⟨e, obs, or2, gb⟩ o).incoming_fills ∧
      (MatchEngine.submit_order ⟨e, obs, or1, gb⟩ o).resting_fills =
        (MatchEngine.submit_order ⟨e, obs, or2, gb⟩ o).resting_fills ∧
      (MatchEngine.submit_order ⟨e, obs, or1, gb⟩ o).state.orderbooks =
        (MatchEngine.submit_order ⟨e, obs, or2, gb⟩ o).state.orderbooks := by
  intro e obs gb or1 or2 o
  simp only [MatchEngine.submit_order]
  repeat' split
  all_goals simp_all

/-! ## Equation lemmas for add_order by side -/

theorem add_order_buy_eq (bk : OrderBook) (o : Order) (h : o.side = Side.BUY) :
    bk.add_order o =
      ⟨⟨bk.symbol,
        if 0 < (matchLoop (fun p => decide (o.price < p))
            (sortKeysBy ascLE (keysOf bk.asks)) o bk.asks).ord.remaining_quantity then
          appendResting bk.bids (matchLoop (fun p => decide (o.price < p))
            (sortKeysBy ascLE (keysOf bk.asks)) o bk.asks).ord
        else bk.bids,
        (matchLoop (fun p => decide (o.price < p))
          (sortKeysBy ascLE (keysOf bk.asks)) o bk.asks).book⟩,
       (matchLoop (fun p => decide (o.price < p))
         (sortKeysBy ascLE (keysOf bk.asks)) o bk.asks).ord,
       (matchLoop (fun p => decide (o.price < p))
         (sortKeysBy ascLE (keysOf bk.asks)) o bk.asks).incF,
       (matchLoop (fun p => decide (o.price < p))
         (sortKeysBy ascLE (keysOf bk.asks)) o bk.asks).restF⟩ := by
  simp only [OrderBook.add_order, h]

theorem add_order_sell_eq (bk : OrderBook) (o : Order) (h : o.side = Side.SELL) :
    bk.add_order o =
      ⟨⟨bk.symbol,
        (matchLoop (fun p => decide (p < o.price))
          (sortKeysBy descLE (keysOf bk.bids)) o bk.bids).book,
        if 0 < (matchLoop (fun p => decide (p < o.price))
            (sortKeysBy descLE (keysOf bk.bids)) o bk.bids).ord.remaining_quantity then
          appendResting bk.asks (matchLoop (fun p => decide (p < o.price))
            (sortKeysBy descLE (keysOf bk.bids)) o bk.bids).ord
        else bk.asks⟩,
       (matchLoop (fun p => decide (p < o.price))
         (sortKeysBy descLE (keysOf bk.bids)) o bk.bids).ord,
       (matchLoop (fun p => decide (p < o.price))
         (sortKeysBy descLE (keysOf bk.bids)) o bk.bids).incF,
       (matchLoop (fun p => decide (p < o.price))
         (sortKeysBy descLE (keysOf bk.bids)) o bk.bids).restF⟩ := by
  simp only [OrderBook.add_order, h]

/-! ## Claim C6 -/

/-- BUY order with a negative price and positive quantity. -/
def exNegPrice : Order := ⟨"N1", "frank", "X", Side.BUY, -1, 5, 5, OrderStatus.NEW, "E1"⟩

/-- Claim C6 (counterexample): a non-positive-price order is not rejected:
add_order returns no error indication of any kind (its result type has
none) and the order rests in the book, so the book is changed. -/
theorem negative_price_order_rests :
    (exEmptyBook.add_order exNegPrice).book.bids = [(-1, [exNegPrice])] ∧
    (exEmptyBook.add_order exNegPrice).book ≠ exEmptyBook ∧
    (exEmptyBook.add_order exNegPrice).incoming_fills = [] := by
  decide

/-- Claim C6 (amended): there is no validation and no INVALID_ORDER
error path.  An order with non-positive remaining quantity silently
produces no fills and leaves the book unchanged (it is dropped, not
rejected), while zero-quantity-field or non-positive-price orders with
positive remaining quantity are processed like any other order and may
rest in the book. -/
theorem add_order_zero_remaining_noop :
    ∀ (bk : OrderBook) (o : Order), o.remaining_quantity ≤ 0 →
      (bk.add_order o).incoming_fills = [] ∧
      (bk.add_order o).resting_fills = [] ∧
      (bk.add_order o).book = bk := by
  intro bk o h
  have hno : ¬(0 < o.remaining_quantity) := by omega
  cases hside : o.side
  · rw [add_order_buy_eq bk o hside,
      matchLoop_nonpos _ _ _ _ h]
    exact ⟨rfl, rfl, by simp [hno]⟩
  · rw [add_order_sell_eq bk o hside,
      matchLoop_nonpos _ _ _ _ h]
    exact ⟨rfl, rfl, by simp [hno]⟩

/-- Zero-remaining SELL order used by the C6 witness. -/
def exZeroRem : Order := ⟨"Z1", "gail", "X", Side.SELL, 100, 0, 0, OrderStatus.NEW, "E1"⟩

/-- Witness for the amended C6 theorem. -/
theorem add_order_zero_remaining_noop_witness :
    (exBookE2.add_order exZeroRem).incoming_fills = [] ∧
    (exBookE2.add_order exZeroRem).resting_fills = [] ∧
    (exBookE2.add_order exZeroRem).book = exBookE2 :=
  add_order_zero_remaining_noop exBookE2 exZeroRem (by decide)

/-! ## Claim C4 -/

/-- All resting orders of a book, bid side then ask side. -/
def bookOrders (bk : OrderBook) : List Order :=
  sideOrders bk.bids ++ sideOrders bk.asks

theorem mem_sideOrders_appendResting (m : LevelMap) (o x : Order)
    (h : x ∈ sideOrders (appendResting m o)) : x = o ∨ x ∈ sideOrders m := by
  unfold appendResting at h
  rcases mem_sideOrders_setLevel _ _ _ _ h with h | h
  · rcases List.mem_append.mp h with h | h
    · exact Or.inr (mem_getLevel_sideOrders m o.price x h)
    · exact Or.inl (List.mem_singleton.mp h)
  · exact Or.inr h

theorem add_order_ord_eq (bk : OrderBook) (o : Order) :
    (bk.add_order o).ord =
      { o with remaining_quantity := (bk.add_order o).ord.remaining_quantity } := by
  cases hside : o.side
  · rw [add_order_buy_eq bk o hside]
    simp only
    rw [matchLoop_ord]
    simp [hside]
  · rw [add_order_sell_eq bk o hside]
    simp only
    rw [matchLoop_ord]
    simp [hside]

theorem add_order_ord_origin (bk : OrderBook) (o : Order) :
    (bk.add_order o).ord.engine_origin_addr = o.engine_origin_addr := by
  conv_lhs => rw [add_order_ord_eq bk o]

theorem add_order_provenance (bk : OrderBook) (o : Order) :
    ∀ x ∈ bookOrders (bk.add_order o).book,
      (x.order_id = o.order_id ∧ x.engine_origin_addr = o.engine_origin_addr) ∨
      ∃ r ∈ bookOrders bk, x.order_id = r.order_id ∧
        x.engine_origin_addr = r.engine_origin_addr := by
  intro x hx
  have hordid : (bk.add_order o).ord.order_id = o.order_id := by
    conv_lhs => rw [add_order_ord_eq bk o]
  have hordorig := add_order_ord_origin bk o
  cases hside : o.side
  · rw [add_order_buy_eq bk o hside] at hx
    simp only [bookOrders, List.mem_append] at hx
    rcases hx with hx | hx
    · by_cases hrest : 0 < (matchLoop (fun p => decide (o.price < p))
          (sortKeysBy ascLE (keysOf bk.asks)) o bk.asks).ord.remaining_quantity
      · rw [if_pos hrest] at hx
        rcases mem_sideOrders_appendResting _ _ _ hx with hx | hx
        · rw [add_order_buy_eq bk o hside] at hordid hordorig
          refine Or.inl ⟨?_, ?_⟩
          · rw [hx]; exact hordid
          · rw [hx]; exact hordorig
        · exact Or.inr ⟨x, by simp [bookOrders, hx], rfl, rfl⟩
      · rw [if_neg hrest] at hx
        exact Or.inr ⟨x, by simp [bookOrders, hx], rfl, rfl⟩
    · obtain ⟨r, hr, h1, h2⟩ := matchLoop_provenance _ _ _ _ x hx
      exact Or.inr ⟨r, by simp [bookOrders, hr], h1, h2⟩
  · rw [add_order_sell_eq bk o hside] at hx
    simp only [bookOrders, List.mem_append] at hx
    rcases hx with hx | hx
    · obtain ⟨r, hr, h1, h2⟩ := matchLoop_provenance _ _ _ _ x hx
      exact Or.inr ⟨r, by simp [bookOrders, hr], h1, h2⟩
    · by_cases hrest : 0 < (matchLoop (fun p => decide (p < o.price))
          (sortKeysBy descLE (keysOf bk.bids)) o bk.bids).ord.remaining_quantity
      · rw [if_pos hrest] at hx
        rcases mem_sideOrders_appendResting _ _ _ hx with hx | hx
        · rw [add_order_sell_eq bk o hside] at hordid hordorig
          refine Or.inl ⟨?_, ?_⟩
          · rw [hx]; exact hordid
          · rw [hx]; exact hordorig
        · exact Or.inr ⟨x, by simp [bookOrders, hx], rfl, rfl⟩
      · rw [if_neg hrest] at hx
        exact Or.inr ⟨x, by simp [bookOrders, hx], rfl, rfl⟩

theorem alookup_areplace_self {α : Type} (m : List (String × α)) (k : String)
    (v : α) (h : ahasKey m k = true) : alookup (areplace m k v) k = some v := by
  induction m with
  | nil => simp [ahasKey] at h
  | cons e es ih =>
    simp only [areplace, alookup]
    by_cases he : e.1 = k
    · simp [he, alookup]
    · simp only [ahasKey, Bool.or_eq_true, decide_eq_true_eq, he, false_or] at h
      simp [he, alookup, ih h]

theorem alookup_append_not {α : Type} (m l : List (String × α)) (k : String)
    (h : ahasKey m k = false) : alookup (m ++ l) k = alookup l k := by
  induction m with
  | nil => simp [alookup]
  | cons e es ih =>
    simp only [ahasKey, Bool.or_eq_true, decide_eq_true_eq] at h
    rw [Bool.or_eq_false_iff] at h
    simp only [List.cons_append, alookup]
    have he : e.1 ≠ k := by simpa using h.1
    simp [he, ih h.2]

theorem alookup_aset_self {α : Type} (m : List (String × α)) (k : String) (v : α) :
    alookup (aset m k v) k = some v := by
  unfold aset
  cases hk : ahasKey m k with
  | true => simp [alookup_areplace_self m k v hk]
  | false =>
    rw [if_neg (by simp [hk]), alookup_append_not m _ k hk]
    simp [alookup]

/-- Claim C4 (amended): matching never touches the origin-engine field —
the incoming order keeps its origin through add_order, and every order
resting in the result book either is the incoming order (same origin) or
keeps the origin it had in the input book — but MatchEngine.submit_order
itself overwrites the order's origin-engine field with this engine's id
on every call, including when it processes an order rerouted from a peer,
so the stored order's origin is always the processing engine. -/
theorem origin_engine_field_behaviour :
    (∀ (bk : OrderBook) (o : Order),
      (bk.add_order o).ord.engine_origin_addr = o.engine_origin_addr) ∧
    (∀ (bk : OrderBook) (o : Order), ∀ x ∈ bookOrders (bk.add_order o).book,
      (x.order_id = o.order_id ∧ x.engine_origin_addr = o.engine_origin_addr) ∨
      ∃ r ∈ bookOrders bk, x.order_id = r.order_id ∧
        x.engine_origin_addr = r.engine_origin_addr) ∧
    (∀ (st : EngineState) (o : Order),
      (alookup (MatchEngine.submit_order st o).state.orders o.order_id).map
        (fun q => q.engine_origin_addr) = some st.engine_id) := by
  refine ⟨add_order_ord_origin, add_order_provenance, ?_⟩
  intro st o
  simp only [MatchEngine.submit_order]
  repeat' split
  all_goals simp only [alookup_aset_self, Option.map_some, Option.map_some']
  all_goals rw [add_order_ord_origin]

/-- Engine E2 with empty state, used to process an order of E1 origin. -/
def exEngineE2 : EngineState := ⟨"E2", [], [], []⟩

/-- Claim C4 (counterexample): submit_order on engine E2 of an order whose
origin-engine field is E1 (exactly the situation after a reroute)
rewrites the field to E2, so the field is not write-once. -/
theorem submit_order_rewrites_origin :
    exBuyE1.engine_origin_addr = "E1" ∧
    (alookup (MatchEngine.submit_order exEngineE2 exBuyE1).state.orders "B1").map
      (fun q => q.engine_origin_addr) = some "E2" := by
  decide

/-- Witness for the amended C4 theorem, at the book holding the E2-origin
resting SELL partially matched by an E1-origin BUY of quantity 3. -/
def exBuySmall : Order := ⟨"B3", "bob", "X", Side.BUY, 100, 3, 3, OrderStatus.NEW, "E1"⟩

theorem origin_engine_field_behaviour_witness :
    ((exBookE2.add_order exBuySmall).ord.engine_origin_addr =
      exBuySmall.engine_origin_addr) ∧
    (({ exSellE2 with remaining_quantity := 2 }.order_id = exBuySmall.order_id ∧
      { exSellE2 with remaining_quantity := 2 }.engine_origin_addr =
        exBuySmall.engine_origin_addr) ∨
      ∃ r ∈ bookOrders exBookE2,
        { exSellE2 with remaining_quantity := 2 }.order_id = r.order_id ∧
        { exSellE2 with remaining_quantity := 2 }.engine_origin_addr =
          r.engine_origin_addr) ∧
    ((alookup (MatchEngine.submit_order exEngineE2 exBuySmall).state.orders
        exBuySmall.order_id).map (fun q => q.engine_origin_addr) =
      some exEngineE2.engine_id) :=
  ⟨origin_engine_field_behaviour.1 exBookE2 exBuySmall,
   origin_engine_field_behaviour.2.1 exBookE2 exBuySmall
     { exSellE2 with remaining_quantity := 2 } (by decide),
   origin_engine_field_behaviour.2.2 exEngineE2 exBuySmall⟩

/-! ## Claim C7 -/

/-- Claim C7 (counterexample): after the BUY fully consumes the only
resting SELL at 100, the level's list is empty but the price key 100 is
still present in the asks map — empty price levels are not removed. -/
theorem empty_level_not_removed :
    (exBookE2.add_order exBuyE1).book.asks = [(100, [])] ∧
    hasKey (exBookE2.add_order exBuyE1).book.asks 100 = true ∧
    getLevel (exBookE2.add_order exBuyE1).book.asks 100 = [] := by
  decide

/-- Helper: add_order preserves positivity of resting remainders. -/
theorem add_order_pos_aux :
    ∀ (bk : OrderBook) (o : Order),
      (∀ x ∈ bookOrders bk, 0 < x.remaining_quantity) →
      ∀ x ∈ bookOrders (bk.add_order o).book, 0 < x.remaining_quantity := by
  intro bk o hpos x hx
  have hbids : ∀ y ∈ sideOrders bk.bids, 0 < y.remaining_quantity :=
    fun y hy => hpos y (by simp [bookOrders, hy])
  have hasks : ∀ y ∈ sideOrders bk.asks, 0 < y.remaining_quantity :=
    fun y hy => hpos y (by simp [bookOrders, hy])
  cases hside : o.side
  · rw [add_order_buy_eq bk o hside] at hx
    simp only [bookOrders, List.mem_append] at hx
    rcases hx with hx | hx
    · by_cases hrest : 0 < (matchLoop (fun p => decide (o.price < p))
          (sortKeysBy ascLE (keysOf bk.asks)) o bk.asks).ord.remaining_quantity
      · rw [if_pos hrest] at hx
        rcases mem_sideOrders_appendResting _ _ _ hx with hx | hx
        · rw [hx]; exact hrest
        · exact hbids x hx
      · rw [if_neg hrest] at hx
        exact hbids x hx
    · exact matchLoop_pos _ _ _ _ hasks x hx
  · rw [add_order_sell_eq bk o hside] at hx
    simp only [bookOrders, List.mem_append] at hx
    rcases hx with hx | hx
    · exact matchLoop_pos _ _ _ _ hbids x hx
    · by_cases hrest : 0 < (matchLoop (fun p => decide (p < o.price))
          (sortKeysBy descLE (keysOf bk.bids)) o bk.bids).ord.remaining_quantity
      · rw [if_pos hrest] at hx
        rcases mem_sideOrders_appendResting _ _ _ hx with hx | hx
        · rw [hx]; exact hrest
        · exact hasks x hx
      · rw [if_neg hrest] at hx
        exact hasks x hx


/-- Claim C7 (amended): after add_order returns, no resting order with
non-positive remaining quantity is left in the book (fully consumed
orders are removed from their level's list, and the incoming order rests
only with positive remainder), but a price level whose list becomes empty
is NOT removed from the bids/asks map — the key stays, holding an empty
list (downstream consumers filter zero-volume levels instead). -/
theorem add_order_preserves_positive_remaining :
    ∀ (bk : OrderBook) (o : Order),
      (∀ x ∈ bookOrders bk, 0 < x.remaining_quantity) →
      ∀ x ∈ bookOrders (bk.add_order o).book, 0 < x.remaining_quantity := by
  exact add_order_pos_aux

/-- Witness for the amended C7 theorem: the survivor of the partial match
of exBuySmall against exBookE2 has positive remaining quantity. -/
theorem add_order_preserves_positive_remaining_witness :
    0 < ({ exSellE2 with remaining_quantity := 2 } : Order).remaining_quantity :=
  add_order_preserves_positive_remaining exBookE2 exBuySmall (by decide)
    { exSellE2 with remaining_quantity := 2 } (by decide)

/-! ## Claims C3 and C10 -/

theorem ascLE_total : ∀ a b : ℤ, ascLE a b = true ∨ ascLE b a = true := by
  intro a b
  simp only [ascLE, decide_eq_true_eq]
  omega

theorem ascLE_trans : ∀ a b c : ℤ, ascLE a b = true → ascLE b c = true →
    ascLE a c = true := by
  intro a b c
  simp only [ascLE, decide_eq_true_eq]
  omega

theorem ascLE_refl : ∀ a : ℤ, ascLE a a = true := by
  intro a
  simp [ascLE]

theorem descLE_total : ∀ a b : ℤ, descLE a b = true ∨ descLE b a = true := by
  intro a b
  simp only [descLE, decide_eq_true_eq]
  omega

theorem descLE_trans : ∀ a b c : ℤ, descLE a b = true → descLE b c = true →
    descLE a c = true := by
  intro a b c
  simp only [descLE, decide_eq_true_eq]
  omega

theorem descLE_refl : ∀ a : ℤ, descLE a a = true := by
  intro a
  simp [descLE]

/-- Claim C3 (confirmed): price priority — for a BUY the emitted fills
carry prices in ascending order (levels are consumed in ascending price
order, each level's fills sharing that level's price) and never above the
order's limit; symmetrically for a SELL in descending order never below
the limit; and within one price level the matched resting orders form an
in-order sublist of the level's FIFO queue, each fill taking
min(incoming remaining at that moment, resting remaining). -/
theorem add_order_price_time_priority :
    (∀ (bk : OrderBook) (o : Order), o.side = Side.BUY →
      List.Pairwise (fun a b : String × Fill => a.2.price ≤ b.2.price)
        (bk.add_order o).incoming_fills ∧
      ∀ f ∈ (bk.add_order o).incoming_fills, f.2.price ≤ o.price) ∧
    (∀ (bk : OrderBook) (o : Order), o.side = Side.SELL →
      List.Pairwise (fun a b : String × Fill => b.2.price ≤ a.2.price)
        (bk.add_order o).incoming_fills ∧
      ∀ f ∈ (bk.add_order o).incoming_fills, o.price ≤ f.2.price) ∧
    (∀ (o : Order) (p : ℤ) (l : List Order),
      List.Sublist ((match_order_at_price o p l).restF.map (fun f => f.2.order_id))
        (l.map (fun r => r.order_id)) ∧
      FifoMin o.remaining_quantity (match_order_at_price o p l).restF) := by
  refine ⟨?_, ?_, ?_⟩
  · intro bk o hside
    rw [add_order_buy_eq bk o hside]
    simp only
    constructor
    · have hs := (matchLoop_fills_sorted ascLE (fun p => decide (o.price < p))
        (sortKeysBy ascLE (keysOf bk.asks)) o bk.asks
        (sorted_sortKeysBy ascLE ascLE_total ascLE_trans _) ascLE_refl).1
      exact hs.imp (fun h => by simpa [ascLE] using h)
    · intro f hf
      have := ((matchLoop_price_mem (fun p => decide (o.price < p))
        (sortKeysBy ascLE (keysOf bk.asks)) o bk.asks).1 f hf).2
      simpa using of_decide_eq_false this
  · intro bk o hside
    rw [add_order_sell_eq bk o hside]
    simp only
    constructor
    · have hs := (matchLoop_fills_sorted descLE (fun p => decide (p < o.price))
        (sortKeysBy descLE (keysOf bk.bids)) o bk.bids
        (sorted_sortKeysBy descLE descLE_total descLE_trans _) descLE_refl).1
      exact hs.imp (fun h => by simpa [descLE] using h)
    · intro f hf
      have := ((matchLoop_price_mem (fun p => decide (p < o.price))
        (sortKeysBy descLE (keysOf bk.bids)) o bk.bids).1 f hf).2
      simpa using of_decide_eq_false this
  · intro o p l
    exact ⟨matchAtPrice_fifo_sublist p l o, matchAtPrice_fifoMin p l o⟩

/-- Two resting SELL orders at one price and a deeper one at a higher
price, for the C3 witness. -/
def exA99 : Order := ⟨"A99", "gail", "X", Side.SELL, 99, 3, 3, OrderStatus.NEW, "E1"⟩
def exA101 : Order := ⟨"A101", "hank", "X", Side.SELL, 101, 3, 3, OrderStatus.NEW, "E1"⟩
def exBookTwoLevels : OrderBook := ⟨"X", [], [(101, [exA101]), (99, [exA99])]⟩
def exBuyBig : Order := ⟨"BB", "ivan", "X", Side.BUY, 101, 10, 10, OrderStatus.NEW, "E1"⟩
def exBidTwoLevels : OrderBook := ⟨"X", [(99, [⟨"B99", "jill", "X", Side.BUY, 99, 3, 3, OrderStatus.NEW, "E1"⟩]) ], []⟩
def exSellLow : Order := ⟨"SL", "kate", "X", Side.SELL, 98, 10, 10, OrderStatus.NEW, "E1"⟩

/-- Witness for the C3 theorem at concrete crossing inputs. -/
theorem add_order_price_time_priority_witness :
    (List.Pairwise (fun a b : String × Fill => a.2.price ≤ b.2.price)
        (exBookTwoLevels.add_order exBuyBig).incoming_fills ∧
      ∀ f ∈ (exBookTwoLevels.add_order exBuyBig).incoming_fills,
        f.2.price ≤ exBuyBig.price) ∧
    (List.Pairwise (fun a b : String × Fill => b.2.price ≤ a.2.price)
        (exBidTwoLevels.add_order exSellLow).incoming_fills ∧
      ∀ f ∈ (exBidTwoLevels.add_order exSellLow).incoming_fills,
        exSellLow.price ≤ f.2.price) ∧
    (List.Sublist ((match_order_at_price exBuyE1 100 [exSellE2]).restF.map
        (fun f => f.2.order_id)) ([exSellE2].map (fun r => r.order_id)) ∧
      FifoMin exBuyE1.remaining_quantity
        (match_order_at_price exBuyE1 100 [exSellE2]).restF) :=
  ⟨add_order_price_time_priority.1 exBookTwoLevels exBuyBig (by decide),
   add_order_price_time_priority.2.1 exBidTwoLevels exSellLow (by decide),
   add_order_price_time_priority.2.2 exBuyE1 100 [exSellE2]⟩

/-- Claim C10 (confirmed): the fill pair of every add_order call is
well-formed — the two lists have equal length, paired records share
fill_id, price, buyer/seller pair and a strictly positive quantity, and
the quantities follow the greedy FIFO min rule against the incoming
order's initial remaining quantity. -/
theorem add_order_fill_pairs_well_formed :
    ∀ (bk : OrderBook) (o : Order),
      (bk.add_order o).incoming_fills.length =
        (bk.add_order o).resting_fills.length ∧
      List.Forall₂ PairedFills (bk.add_order o).incoming_fills
        (bk.add_order o).resting_fills ∧
      FifoMin o.remaining_quantity (bk.add_order o).resting_fills := by
  intro bk o
  have hpair : List.Forall₂ PairedFills (bk.add_order o).incoming_fills
      (bk.add_order o).resting_fills := by
    cases hside : o.side
    · rw [add_order_buy_eq bk o hside]
      exact matchLoop_paired _ _ _ _
    · rw [add_order_sell_eq bk o hside]
      exact matchLoop_paired _ _ _ _
  refine ⟨hpair.length_eq, hpair, ?_⟩
  cases hside : o.side
  · rw [add_order_buy_eq bk o hside]
    exact matchLoop_fifoMin _ _ _ _
  · rw [add_order_sell_eq bk o hside]
    exact matchLoop_fifoMin _ _ _ _

/-! ## Claim C8 -/

/-- No-crossed-book property over the non-empty levels of a book. -/
def Uncrossed (bk : OrderBook) : Prop :=
  ∀ p q : ℤ, getLevel bk.bids p ≠ [] → getLevel bk.asks q ≠ [] → p < q

/-- Well-formedness maintained by add_order from the empty book: the dict
keys of each side are distinct, every resting order has positive
remaining quantity, and the book is not crossed. -/
def BookWF (bk : OrderBook) : Prop :=
  (keysOf bk.bids).Nodup ∧ (keysOf bk.asks).Nodup ∧
  (∀ x ∈ bookOrders bk, 0 < x.remaining_quantity) ∧ Uncrossed bk

/-- Books reachable from an empty book by a sequence of add_order calls. -/
inductive Reachable : OrderBook → Prop
  | empty (sym : String) : Reachable ⟨sym, [], []⟩
  | step (bk : OrderBook) (o : Order) : Reachable bk → Reachable (bk.add_order o).book

theorem nodup_keys_setLevel (m : LevelMap) (p : ℤ) (q : List Order)
    (h : (keysOf m).Nodup) : (keysOf (setLevel m p q)).Nodup := by
  cases hk : hasKey m p with
  | false =>
    rw [keysOf_setLevel_of_not m p q hk]
    have hpm : p ∉ keysOf m := fun hm => by
      rw [(hasKey_iff_mem m p).mpr hm] at hk
      cases hk
    simp [List.nodup_append, hpm, h]
  | true =>
    rw [keysOf_setLevel_of_has m p q hk]
    exact h

theorem getLevel_appendResting_ne_nil (m : LevelMap) (o : Order) (j : ℤ)
    (h : getLevel (appendResting m o) j ≠ []) :
    j = o.price ∨ getLevel m j ≠ [] := by
  by_cases hj : j = o.price
  · exact Or.inl hj
  · right
    unfold appendResting at h
    rw [getLevel_setLevel_ne _ _ _ _ (fun he => hj he.symm)] at h
    exact h

theorem add_order_preserves_BookWF (bk : OrderBook) (o : Order) (h : BookWF bk) :
    BookWF (bk.add_order o).book := by
  obtain ⟨hndb, hnda, hpos, hcross⟩ := h
  have hbidpos : ∀ y ∈ sideOrders bk.bids, 0 < y.remaining_quantity :=
    fun y hy => hpos y (by simp [bookOrders, hy])
  have haskpos : ∀ y ∈ sideOrders bk.asks, 0 < y.remaining_quantity :=
    fun y hy => hpos y (by simp [bookOrders, hy])
  have hposbook := add_order_pos_aux bk o hpos
  cases hside : o.side
  · rw [add_order_buy_eq bk o hside] at hposbook ⊢
    simp only at hposbook ⊢
    refine ⟨?_, ?_, hposbook, ?_⟩
    · by_cases hrest : 0 < (matchLoop (fun p => decide (o.price < p))
          (sortKeysBy ascLE (keysOf bk.asks)) o bk.asks).ord.remaining_quantity
      · rw [if_pos hrest]
        unfold appendResting
        exact nodup_keys_setLevel _ _ _ hndb
      · rw [if_neg hrest]
        exact hndb
    · rw [matchLoop_keys _ _ _ _ (fun p hp => (hasKey_iff_mem _ _).mpr
        ((mem_sortKeysBy ascLE _ p).mp hp))]
      exact hnda
    · intro p q hp hq
      have hq0 : getLevel bk.asks q ≠ [] := by
        intro hnil
        exact hq (matchLoop_shrink _ _ _ _ q hnil)
      by_cases hrest : 0 < (matchLoop (fun p => decide (o.price < p))
          (sortKeysBy ascLE (keysOf bk.asks)) o bk.asks).ord.remaining_quantity
      · rw [if_pos hrest] at hp
        rcases getLevel_appendResting_ne_nil _ _ _ hp with hpL | hp0
        · have hprice : (matchLoop (fun p => decide (o.price < p))
              (sortKeysBy ascLE (keysOf bk.asks)) o bk.asks).ord.price = o.price := by
            conv_lhs => rw [matchLoop_ord]
          rw [hpL, hprice]
          have hqkeys : q ∈ sortKeysBy ascLE (keysOf bk.asks) :=
            (mem_sortKeysBy ascLE _ q).mpr ((hasKey_iff_mem _ _).mp
              (getLevel_ne_nil_hasKey _ _ hq0))
          cases htf : decide (o.price < q) with
          | true => exact of_decide_eq_true htf
          | false =>
            exfalso
            apply hq
            refine matchLoop_empties ascLE _ _ o bk.asks
              (sorted_sortKeysBy ascLE ascLE_total ascLE_trans _)
              (nodup_sortKeysBy ascLE _ hnda) ?_ haskpos hrest q hqkeys htf
            intro a b hab hta
            simp only [ascLE, decide_eq_true_eq] at hab hta ⊢
            omega
        · exact hcross p q hp0 hq0
      · rw [if_neg hrest] at hp
        exact hcross p q hp hq0
  · rw [add_order_sell_eq bk o hside] at hposbook ⊢
    simp only at hposbook ⊢
    refine ⟨?_, ?_, hposbook, ?_⟩
    · rw [matchLoop_keys _ _ _ _ (fun p hp => (hasKey_iff_mem _ _).mpr
        ((mem_sortKeysBy descLE _ p).mp hp))]
      exact hndb
    · by_cases hrest : 0 < (matchLoop (fun p => decide (p < o.price))
          (sortKeysBy descLE (keysOf bk.bids)) o bk.bids).ord.remaining_quantity
      · rw [if_pos hrest]
        unfold appendResting
        exact nodup_keys_setLevel _ _ _ hnda
      · rw [if_neg hrest]
        exact hnda
    · intro p q hp hq
      have hp0 : getLevel bk.bids p ≠ [] := by
        intro hnil
        exact hp (matchLoop_shrink _ _ _ _ p hnil)
      by_cases hrest : 0 < (matchLoop (fun p => decide (p < o.price))
          (sortKeysBy descLE (keysOf bk.bids)) o bk.bids).ord.remaining_quantity
      · rw [if_pos hrest] at hq
        rcases getLevel_appendResting_ne_nil _ _ _ hq with hqL | hq0
        · have hprice : (matchLoop (fun p => decide (p < o.price))
              (sortKeysBy descLE (keysOf bk.bids)) o bk.bids).ord.price = o.price := by
            conv_lhs => rw [matchLoop_ord]
          rw [hqL, hprice]
          have hpkeys : p ∈ sortKeysBy descLE (keysOf bk.bids) :=
            (mem_sortKeysBy descLE _ p).mpr ((hasKey_iff_mem _ _).mp
              (getLevel_ne_nil_hasKey _ _ hp0))
          cases htf : decide (p < o.price) with
          | true => exact of_decide_eq_true htf
          | false =>
            exfalso
            apply hp
            refine matchLoop_empties descLE _ _ o bk.bids
              (sorted_sortKeysBy descLE descLE_total descLE_trans _)
              (nodup_sortKeysBy descLE _ hndb) ?_ hbidpos hrest p hpkeys htf
            intro a b hab hta
            simp only [descLE, decide_eq_true_eq] at hab hta ⊢
            omega
        · exact hcross p q hp0 hq0
      · rw [if_neg hrest] at hq
        exact hcross p q hp0 hq

theorem reachable_BookWF (bk : OrderBook) (h : Reachable bk) : BookWF bk := by
  induction h with
  | empty sym =>
    refine ⟨List.nodup_nil, List.nodup_nil, ?_, ?_⟩
    · intro x hx
      simp [bookOrders, sideOrders] at hx
    · intro p q hp hq
      simp [getLevel] at hp
  | step bk o hr ih => exact add_order_preserves_BookWF bk o ih

/-- Claim C8 (confirmed): for every book reachable from the empty book by
a sequence of add_order calls, after each call returns every bid price
with a non-empty level is strictly below every ask price with a non-empty
level (in particular the maximum such bid is below the minimum such ask
whenever both sides are non-empty). -/
theorem reachable_book_never_crossed :
    ∀ (bk : OrderBook), Reachable bk → ∀ p q : ℤ,
      getLevel bk.bids p ≠ [] → getLevel bk.asks q ≠ [] → p < q :=
  fun bk h => (reachable_BookWF bk h).2.2.2

/-- Orders building the concrete reachable book of the C8 witness. -/
def exWSell : Order := ⟨"WS", "lena", "X", Side.SELL, 101, 3, 3, OrderStatus.NEW, "E1"⟩
def exWBuy : Order := ⟨"WB", "mike", "X", Side.BUY, 99, 3, 3, OrderStatus.NEW, "E1"⟩

/-- Witness for the C8 theorem on a concrete reachable two-sided book. -/
theorem reachable_book_never_crossed_witness : (99 : ℤ) < 101 :=
  reachable_book_never_crossed
    ((((⟨"X", [], []⟩ : OrderBook).add_order exWSell).book.add_order exWBuy).book)
    (Reachable.step _ exWBuy (Reachable.step _ exWSell (Reachable.empty "X")))
    99 101 (by decide) (by decide)
